import Mathlib

/-!
Verification of the json-parser repository: a shallow embedding of its
tokenizer (crates/parser/src/lexer.rs, identical to the Tokenizer in
src/token.rs used by Parser::new), its recursive-descent parser
(crates/parser/src/parse.rs) and its formatter
(crates/formatter/src/format.rs), together with proofs about the claims
of the specification.

Conventions of the embedding:
* Rust `panic!` / `unreachable!` calls are modelled as an explicit
  `.error` / `.panicked` outcome carrying the panic message; in the real
  program such an outcome aborts the process.
* The parser's and the lexer's loops are modelled with an explicit fuel
  parameter (`none` = fuel exhausted, a model artifact that is proved
  unreachable for the fuel the wrappers supply), so that every
  definition is executable by kernel reduction.
* Character classification: the Rust source uses the Unicode-aware
  `char::is_numeric`, `char::is_alphanumeric` and `char::is_whitespace`;
  the model uses the ASCII classifiers `Char.isDigit`, `Char.isAlphanum`
  and `Char.isWhitespace`, which agree with the Rust predicates on every
  ASCII character.
-/

namespace JsonParser

/-! ## Model of the `f64` number payload

The lexer feeds `str::parse::<f64>()` maximal runs of digit and dot
characters, and the formatter prints a number back with
`f64::to_string()`.  A parsed number (`FNum`, below) is finite or
infinite: digit strings whose value reaches the `f64` rounding
threshold parse to `Ok(f64::INFINITY)` in Rust — overflow is not a
parse error — and such a value prints as `inf`, which this lexer then
cannot re-read as a number.  A finite value is represented by its exact
decimal value, kept as a normalized integer part and fractional part
(`F64`); this identifies two in-range decimal strings exactly when they
denote the same decimal value, abstracting only IEEE-754 rounding
within the finite range. -/

structure F64 where
  intPart : List Char
  fracPart : List Char
deriving DecidableEq, Repr

/-- Strip leading zeros of an integer-part digit string, keeping a single
zero when nothing remains (the normal form Rust's `Display` prints). -/
def normIntPart (s : List Char) : List Char :=
  let t := s.dropWhile (· == '0')
  if t.isEmpty then ['0'] else t

/-- Strip trailing zeros of a fractional-part digit string. -/
def normFracPart (s : List Char) : List Char :=
  (s.reverse.dropWhile (· == '0')).reverse

/-- Character class the lexer's `consume_number` accumulates: ASCII digits
and the dot (Rust: `c.is_numeric() || c == '.'`). -/
def isF64Char (c : Char) : Bool := c.isDigit || c == '.'

/-- The grammar and exact-decimal normalization underlying `parseF64`
(the model of `str::parse::<f64>()`), on the digit-and-dot strings this
lexer can produce (no sign, no exponent, no `inf`/`NaN` spellings: the
lexer only starts a number on an ASCII digit and never accumulates a
letter or a sign).  Accepts `digits`, `digits.digits?` and `.digits`,
rejects the bare dot and a second dot, mirroring Rust's grammar; the
range behaviour (overflow to infinity) lives in `parseF64`. -/
def f64FromChars (s : List Char) : Option F64 :=
  if s.isEmpty then none
  else if !(s.all isF64Char) then none
  else
    match s.dropWhile (· ≠ '.') with
    | [] => some ⟨normIntPart (s.takeWhile (· ≠ '.')), []⟩
    | _ :: f =>
      if f.any (· = '.') then none
      else if (s.takeWhile (· ≠ '.')).isEmpty && f.isEmpty then none
      else some ⟨normIntPart (s.takeWhile (· ≠ '.')), normFracPart f⟩

/-- Display of a finite value: the integer part, then a dot and the
fractional part when the latter is nonempty.  The model of
`f64::to_string()` itself is `FNum.toChars`, which additionally prints
`inf` for the overflowed value. -/
def F64.toChars (n : F64) : List Char :=
  n.intPart ++ (if n.fracPart.isEmpty then [] else '.' :: n.fracPart)

/-- Normal form invariant every `f64FromChars`-produced value satisfies. -/
def F64.WF (n : F64) : Prop :=
  n.intPart = normIntPart n.intPart ∧ n.fracPart = normFracPart n.fracPart ∧
  n.intPart.all Char.isDigit ∧ n.fracPart.all Char.isDigit ∧ n.intPart ≠ []

instance (n : F64) : Decidable n.WF := by
  unfold F64.WF; infer_instance

/-- Numeric value of a digit string (most significant first). -/
def natOfDigits (s : List Char) : Nat :=
  s.foldl (fun a c => 10 * a + (c.toNat - 48)) 0

/-- The overflow threshold of `f64`: an exact decimal value of at least
`2^1024 - 2^970` (the midpoint between `f64::MAX` and `2^1024`, which
rounds up under round-half-to-even) rounds to infinity.  Since the
threshold is an integer and the fractional part is below one, a
digit-and-dot string overflows exactly when its integer part reaches
the threshold. -/
def f64Threshold : Nat :=
  179769313486231580793728971405303415079934132710037826936173778980444968292764750946649017977587207096330286416692887910946555547851940402630657488671505820681908902000708383676273854845817711531764475730270069855571366959622842914819860834936475292719074168444365510704342711559699508093042880177904174497792

theorem f64Threshold_eq : f64Threshold = 2 ^ 1024 - 2 ^ 970 := by
  unfold f64Threshold
  norm_num

/-- A lexed `f64`: either a finite value (kept as its exact decimal in
display normal form) or infinity.  `str::parse::<f64>()` does not fail
on out-of-range digit strings — `"1e309"`-sized literals parse to
`Ok(f64::INFINITY)` — so the lexer really produces such values. -/
inductive FNum where
  | finite (n : F64)
  | inf
deriving DecidableEq, Repr

/-- Model of `str::parse::<f64>()` on this lexer's digit-and-dot
strings: the grammar and normalization of `f64FromChars`, with values
past the `f64` range going to infinity instead of erroring. -/
def parseF64 (s : List Char) : Option FNum :=
  match f64FromChars s with
  | none => none
  | some n =>
    if f64Threshold ≤ natOfDigits (s.takeWhile (· ≠ '.')) then some .inf
    else some (.finite n)

/-- Model of `f64::to_string()` (Rust `Display`): finite values print
their decimal normal form, infinity prints `inf`. -/
def FNum.toChars : FNum → List Char
  | .finite n => n.toChars
  | .inf => ['i', 'n', 'f']

/-- The invariant of every finite number `parseF64` produces: decimal
normal form and an integer part below the overflow threshold (so its
display re-parses to the same value).  Infinity is not `WF`: its
display `inf` does not lex as a number at all. -/
def FNum.WF : FNum → Prop
  | .finite n => n.WF ∧ natOfDigits n.intPart < f64Threshold
  | .inf => False

/-- Finiteness of a lexed number. -/
def FNum.isFinite : FNum → Bool
  | .finite _ => true
  | .inf => false

instance (v : FNum) : Decidable v.WF := by
  cases v <;> (unfold FNum.WF; infer_instance)

/-! ## Tokens (crates/parser/src/token.rs) -/

inductive Token where
  | LBrace | RBrace | LBracket | RBracket | Colon | Comma
  | StringValue (s : List Char)
  | NumberValue (n : FNum)
  | BooleanValue (b : Bool)
  | NullValue
  | End
deriving DecidableEq, Repr

/-- The static `CHAR_TOKENS` map. -/
def CHAR_TOKENS (c : Char) : Option Token :=
  if c = '{' then some .LBrace
  else if c = '}' then some .RBrace
  else if c = '[' then some .LBracket
  else if c = ']' then some .RBracket
  else if c = ':' then some .Colon
  else if c = ',' then some .Comma
  else none

/-- The static `KEYWORD_TOKENS` map. -/
def KEYWORD_TOKENS (s : List Char) : Option Token :=
  if s = "true".toList then some (.BooleanValue true)
  else if s = "false".toList then some (.BooleanValue false)
  else if s = "null".toList then some (.NullValue)
  else none

/-- Debug rendering of a token, standing in for Rust's `{:?}` formatting
inside panic messages (only reachable from code paths that are themselves
guarded, so the exact text never matters to any claim). -/
def Token.debug : Token → String
  | .LBrace => "LBrace"
  | .RBrace => "RBrace"
  | .LBracket => "LBracket"
  | .RBracket => "RBracket"
  | .Colon => "Colon"
  | .Comma => "Comma"
  | .StringValue s => "StringValue(" ++ String.mk s ++ ")"
  | .NumberValue n => "NumberValue(" ++ String.mk n.toChars ++ ")"
  | .BooleanValue true => "BooleanValue(true)"
  | .BooleanValue false => "BooleanValue(false)"
  | .NullValue => "NullValue"
  | .End => "End"

/-! ## Lexer (crates/parser/src/lexer.rs)

Each function takes the remaining characters and returns the produced
token together with the characters left, or the panic message. -/

/-- Model of `Lexer::consume_char`. -/
def Lexer.consume_char (cs : List Char) : Except String (Token × List Char) :=
  match cs with
  | c :: rest =>
    match CHAR_TOKENS c with
    | some t => .ok (t, rest)
    | none => .error ("Unexpected character: " ++ String.mk [c])
  | [] => .error "Unexpected char of input"

/-- The accumulation loop of `Lexer::consume_string`: characters are taken
verbatim until the closing quote; exhausting the input first panics. -/
def Lexer.consume_string_rest (cs : List Char) : Except String (Token × List Char) :=
  match cs.dropWhile (· ≠ '"') with
  | _ :: rest => .ok (.StringValue (cs.takeWhile (· ≠ '"')), rest)
  | [] => .error "Unexpected end of input"

/-- Model of `Lexer::consume_string`: drop the opening quote when present,
then run the accumulation loop. -/
def Lexer.consume_string (cs : List Char) : Except String (Token × List Char) :=
  Lexer.consume_string_rest (if cs.head? = some '"' then cs.tail else cs)

/-- Model of `Lexer::consume_number`: accumulate the maximal run of
digit/dot characters and parse it as an `f64`. -/
def Lexer.consume_number (cs : List Char) : Except String (Token × List Char) :=
  match parseF64 (cs.takeWhile isF64Char) with
  | some n => .ok (.NumberValue n, cs.dropWhile isF64Char)
  | none => .error ("Unexpected number: " ++ String.mk (cs.takeWhile isF64Char))

/-- Model of `Lexer::consume_keyword`: accumulate the maximal alphanumeric
run and resolve it against the keyword table. -/
def Lexer.consume_keyword (cs : List Char) : Except String (Token × List Char) :=
  match KEYWORD_TOKENS (cs.takeWhile Char.isAlphanum) with
  | some t => .ok (t, cs.dropWhile Char.isAlphanum)
  | none => .error ("Unexpected keyword: " ++ String.mk (cs.takeWhile Char.isAlphanum))

/-- The dispatch of `Lexer::next_token` after `consume_whitespace` ran:
match on the next character, yield `End` on exhausted input. -/
def Lexer.next_token_at (cs : List Char) : Except String (Token × List Char) :=
  match cs.head? with
  | none => .ok (.End, cs)
  | some c =>
    if c = '{' ∨ c = '}' ∨ c = '[' ∨ c = ']' ∨ c = ':' ∨ c = ',' then
      Lexer.consume_char cs
    else if c = '"' then Lexer.consume_string cs
    else if c.isDigit then Lexer.consume_number cs
    else if c.isAlpha then Lexer.consume_keyword cs
    else .error ("Unexpected character: " ++ String.mk [c])

/-- Model of `Lexer::next_token`: `consume_whitespace` (skip the maximal
whitespace run), then dispatch. -/
def Lexer.next_token (cs : List Char) : Except String (Token × List Char) :=
  Lexer.next_token_at (cs.dropWhile Char.isWhitespace)

/-- Fueled loop of `Lexer::tokenize`: push each token until `End`.
`none` means the fuel ran out (never happens with the fuel
`Lexer.tokenize` supplies). -/
def Lexer.tokenizeGo : Nat → List Char → Option (Except String (List Token))
  | 0, _ => none
  | fuel + 1, cs =>
    match Lexer.next_token cs with
    | .error e => some (.error e)
    | .ok (t, cs') =>
      if t = Token.End then some (.ok [Token.End])
      else
        match Lexer.tokenizeGo fuel cs' with
        | none => none
        | some (.error e) => some (.error e)
        | some (.ok ts) => some (.ok (t :: ts))

/-- Model of `Lexer::tokenize` (and of `Tokenizer::tokenize`, the copy in
src/token.rs that `Parser::new` invokes): the produced token sequence
always ends with `End`; an error is a panic of the process. -/
def Lexer.tokenize (cs : List Char) : Except String (List Token) :=
  (Lexer.tokenizeGo (cs.length + 1) cs).getD (.error "out of fuel")

/-! ## Syntax tree (crates/parser/src/node.rs)

The snapshot's node.rs lacks the `Identifier` variant that parse.rs
constructs for property keys (the two files come from different
revisions of the repository); the variant is added here exactly as
parse.rs uses it: an `Identifier` carries the key text and has no
children. -/

inductive SyntaxKind where
  | SourceFile
  | StringLiteral (s : List Char)
  | NumberLiteral (n : FNum)
  | TrueKeyword
  | FalseKeyword
  | NullKeyword
  | Identifier (s : List Char)
  | PropertyAssignment
  | ObjectLiteralExpression
  | ArrayLiteralExpression
  | End
deriving DecidableEq, Repr

inductive Node where
  | mk (kind : SyntaxKind) (children : List Node)

def Node.kind : Node → SyntaxKind
  | .mk k _ => k

def Node.children : Node → List Node
  | .mk _ cs => cs

/-! ## Parser (crates/parser/src/parse.rs)

The productions return `Result<Node, String>` in the source; `panic!`
and `unreachable!` are a separate outcome.  The recursive productions
take an explicit fuel (`none` = fuel exhausted, proved unreachable for
the fuel `Parser.parse` supplies). -/

inductive PRes where
  | ok (n : Node) (rest : List Token)
  | err (msg : String)
  | panicked (msg : String)

inductive PListRes where
  | ok (ns : List Node) (rest : List Token)
  | err (msg : String)
  | panicked (msg : String)

/-- Model of `Parser::consume_string`. -/
def Parser.consume_string : List Token → PRes
  | Token.StringValue v :: rest => .ok (Node.mk (.StringLiteral v) []) rest
  | t :: _ => .panicked ("Unexpected token: " ++ t.debug)
  | [] => .panicked "Unexpected end of input"

/-- Model of `Parser::consume_number`. -/
def Parser.consume_number : List Token → PRes
  | Token.NumberValue v :: rest => .ok (Node.mk (.NumberLiteral v) []) rest
  | t :: _ => .panicked ("Unexpected token: " ++ t.debug)
  | [] => .panicked "Unexpected end of input"

/-- Model of `Parser::consume_keyword`. -/
def Parser.consume_keyword : List Token → PRes
  | Token.BooleanValue true :: rest => .ok (Node.mk .TrueKeyword []) rest
  | Token.BooleanValue false :: rest => .ok (Node.mk .FalseKeyword []) rest
  | Token.NullValue :: rest => .ok (Node.mk .NullKeyword []) rest
  | t :: _ => .panicked ("Unexpected token: " ++ t.debug)
  | [] => .panicked "Unexpected token of input"

mutual

/-- Model of `Parser::consume_property_assignment`: the current token must
be `StringValue` (the key), else `Err`; then the key token and the token
after it (expected to be the colon, but not checked) are consumed
unconditionally, and the value production runs. -/
def Parser.consume_property_assignment : Nat → List Token → Option PRes
  | 0, _ => none
  | fuel + 1, toks =>
    match toks.head? with
    | some (Token.StringValue s) =>
      match Parser.consume_value fuel toks.tail.tail with
      | some (.ok value rest) =>
        some (.ok (Node.mk .PropertyAssignment [Node.mk (.Identifier s) [], value]) rest)
      | r => r
    | _ => some (.err "Unexpected token of input")

/-- Model of `Parser::consume_object`: consume the opening token
unconditionally, then loop. -/
def Parser.consume_object : Nat → List Token → Option PRes
  | 0, _ => none
  | fuel + 1, toks =>
    match Parser.consume_object_loop fuel toks.tail with
    | some (.ok pas rest) => some (.ok (Node.mk .ObjectLiteralExpression pas) rest)
    | some (.err e) => some (.err e)
    | some (.panicked e) => some (.panicked e)
    | none => none

/-- The `loop` inside `Parser::consume_object`: `RBrace` terminates, a
string key starts a property assignment, a comma is skipped, anything
else is `Err`. -/
def Parser.consume_object_loop : Nat → List Token → Option PListRes
  | 0, _ => none
  | fuel + 1, toks =>
    match toks.head? with
    | some Token.RBrace => some (.ok [] toks.tail)
    | some (Token.StringValue _) =>
      match Parser.consume_property_assignment fuel toks with
      | some (.ok pa rest) =>
        match Parser.consume_object_loop fuel rest with
        | some (.ok pas rest') => some (.ok (pa :: pas) rest')
        | r => r
      | some (.err e) => some (.err e)
      | some (.panicked e) => some (.panicked e)
      | none => none
    | some Token.Comma => Parser.consume_object_loop fuel toks.tail
    | _ => some (.err "Unexpected token of input")

/-- Model of `Parser::consume_array`: consume the opening token
unconditionally, then loop. -/
def Parser.consume_array : Nat → List Token → Option PRes
  | 0, _ => none
  | fuel + 1, toks =>
    match Parser.consume_array_loop fuel toks.tail with
    | some (.ok es rest) => some (.ok (Node.mk .ArrayLiteralExpression es) rest)
    | some (.err e) => some (.err e)
    | some (.panicked e) => some (.panicked e)
    | none => none

/-- The `loop` inside `Parser::consume_array`: `RBracket` terminates, a
value-starting token parses one element, a comma is skipped, anything
else is `Err`. -/
def Parser.consume_array_loop : Nat → List Token → Option PListRes
  | 0, _ => none
  | fuel + 1, toks =>
    match toks.head? with
    | some Token.RBracket => some (.ok [] toks.tail)
    | some (Token.StringValue _) | some (Token.NumberValue _)
    | some (Token.BooleanValue _) | some Token.NullValue
    | some Token.LBrace | some Token.LBracket =>
      match Parser.consume_value fuel toks with
      | some (.ok v rest) =>
        match Parser.consume_array_loop fuel rest with
        | some (.ok es rest') => some (.ok (v :: es) rest')
        | r => r
      | some (.err e) => some (.err e)
      | some (.panicked e) => some (.panicked e)
      | none => none
    | some Token.Comma => Parser.consume_array_loop fuel toks.tail
    | _ => some (.err "Unexpected token of input")

/-- Model of `Parser::consume_value`, the central dispatch on the
lookahead token. -/
def Parser.consume_value : Nat → List Token → Option PRes
  | 0, _ => none
  | fuel + 1, toks =>
    match toks.head? with
    | some (Token.StringValue _) => some (Parser.consume_string toks)
    | some (Token.NumberValue _) => some (Parser.consume_number toks)
    | some (Token.BooleanValue _) => some (Parser.consume_keyword toks)
    | some Token.NullValue => some (Parser.consume_keyword toks)
    | some Token.LBrace => Parser.consume_object fuel toks
    | some Token.LBracket => Parser.consume_array fuel toks
    | _ => some (.err "Unexpected token of input")

end

/-- Outcome of the public `Parser::parse`: the function returns a bare
`Node` in the source and converts any `Err` into a `panic!`, so the
caller sees either a tree or an aborted process. -/
inductive POut where
  | ok (n : Node)
  | panicked (msg : String)

/-- Fuel sufficient for any token list (proved below). -/
def Parser.parseFuel (toks : List Token) : Nat := 3 * toks.length + 8

/-- Model of `Parser::parse`: dispatch on the first token — `LBrace` and
`LBracket` delegate to the object and array productions, anything else is
`Err`; an `Err` result is then turned into a `panic!`. -/
def Parser.parse (toks : List Token) : POut :=
  let result : Option PRes :=
    match toks.head? with
    | some Token.LBrace => Parser.consume_object (Parser.parseFuel toks) toks
    | some Token.LBracket => Parser.consume_array (Parser.parseFuel toks) toks
    | _ => some (.err "Unexpected the first token of input")
  match result with
  | some (.ok n _) => .ok n
  | some (.err e) => .panicked e
  | some (.panicked e) => .panicked e
  | none => .panicked "out of fuel"

/-- Model of `Parser::new` followed by `Parser::parse`: tokenize the
input (panics propagate) and parse the token stream. -/
def Parser.parse_str (cs : List Char) : POut :=
  match Lexer.tokenize cs with
  | .error e => .panicked e
  | .ok toks => Parser.parse toks

/-! ## Formatter (crates/formatter/src/format.rs)

The mutable `self.indent` counter (incremented entering a composite,
decremented leaving it) is modelled as an explicit depth parameter.
Rust panics (`unreachable!`, out-of-bounds indexing of
`node.children[0]`/`[1]`) are the `.error` outcome. -/

structure FormatOptions where
  spaces : Nat
  use_tabs : Bool
  trailing_commas : Bool
  print_width : Nat
deriving DecidableEq, Repr

/-- The `Default` impl of `FormatOptions`. -/
def FormatOptions.default : FormatOptions :=
  { spaces := 4, use_tabs := false, trailing_commas := false, print_width := 80 }

/-- Model of `Formatter::indent_string`: one tab, or `spaces` spaces, per
indent level. -/
def Formatter.indent_string (opts : FormatOptions) (indent : Nat) : List Char :=
  (List.replicate indent (if opts.use_tabs then ['\t'] else List.replicate opts.spaces ' ')).flatten

/-- Model of `Formatter::format_primitive`. -/
def Formatter.format_primitive (node : Node) : Except String (List Char) :=
  match node.kind with
  | .StringLiteral text => .ok ('"' :: text ++ ['"'])
  | .NumberLiteral v => .ok v.toChars
  | .TrueKeyword => .ok "true".toList
  | .FalseKeyword => .ok "false".toList
  | .NullKeyword => .ok "null".toList
  | _ => .error "format_primitive called on non-primitive node"

/-- Modelled from the spec: rendering of a property key node.  The
parser (parse.rs) stores keys as `Identifier` nodes, but the snapshot's
format.rs revision predates that variant (its own tests still use
`StringLiteral` keys), so the repository code that renders an
`Identifier` is not in the snapshot.  Spec §4.3: "`PropertyAssignment`
renders as `"<key>": <formatted value>` — key wrapped in quotes, single
colon-space separator, no key escaping". -/
def Formatter.format_identifier (s : List Char) : List Char :=
  '"' :: s ++ ['"']

mutual

/-- Model of `Formatter::format` (dispatch) together with
`Formatter::format_array` and `Formatter::format_object`, whose bodies
differ only in the delimiters: opening delimiter, the members at depth
`indent + 1`, then a newline, the indent string one level shallower and
the closing delimiter.  The `trailing_commas` option is never consulted
(the field exists on `FormatOptions` but no formatting code reads it).
The `Identifier` arm is `Formatter.format_identifier`, modelled from the
spec (see there). -/
def Formatter.format (opts : FormatOptions) (indent : Nat) : Node → Except String (List Char)
  | .mk kind children =>
    match kind with
    | .ObjectLiteralExpression =>
      match Formatter.format_children opts (indent + 1) children true with
      | .error e => .error e
      | .ok body => .ok ('{' :: (body ++ '\n' :: (Formatter.indent_string opts indent ++ ['}'])))
    | .ArrayLiteralExpression =>
      match Formatter.format_children opts (indent + 1) children true with
      | .error e => .error e
      | .ok body => .ok ('[' :: (body ++ '\n' :: (Formatter.indent_string opts indent ++ [']'])))
    | .StringLiteral s => Formatter.format_primitive (.mk (.StringLiteral s) children)
    | .NumberLiteral v => Formatter.format_primitive (.mk (.NumberLiteral v) children)
    | .TrueKeyword => Formatter.format_primitive (.mk .TrueKeyword children)
    | .FalseKeyword => Formatter.format_primitive (.mk .FalseKeyword children)
    | .NullKeyword => Formatter.format_primitive (.mk .NullKeyword children)
    | .PropertyAssignment =>
      match children with
      | k :: v :: _ =>
        match Formatter.format opts indent k with
        | .error e => .error e
        | .ok ks =>
          match Formatter.format opts indent v with
          | .error e => .error e
          | .ok vs => .ok (ks ++ ':' :: ' ' :: vs)
      | _ => .error "index out of bounds"
    | .Identifier s => .ok (Formatter.format_identifier s)
    | _ => .error "format called on non-format node"

/-- The member loop shared by `format_array` and `format_object`: each
child is preceded by a comma when it is not the first, then a newline,
the indent string and its own formatted text. -/
def Formatter.format_children (opts : FormatOptions) (indent : Nat) :
    List Node → Bool → Except String (List Char)
  | [], _ => .ok []
  | c :: cs, first =>
    match Formatter.format opts indent c with
    | .error e => .error e
    | .ok cstr =>
      match Formatter.format_children opts indent cs false with
      | .error e => .error e
      | .ok rest =>
        .ok ((if first then [] else [',']) ++
          '\n' :: (Formatter.indent_string opts indent ++ cstr) ++ rest)

end

/-- A fresh `Formatter` (indent starts at 0) formatting a tree. -/
def Formatter.format_root (opts : FormatOptions) (node : Node) : Except String (List Char) :=
  Formatter.format opts 0 node

/-- Outcome of the whole text-to-text pipeline. -/
inductive FRes where
  | ok (out : List Char)
  | panicked (msg : String)

/-- The text-to-text pipeline the CLI performs: tokenize, parse, format;
any panic along the way aborts. -/
def format_pipeline (opts : FormatOptions) (cs : List Char) : FRes :=
  match Parser.parse_str cs with
  | .panicked e => .panicked e
  | .ok node =>
    match Formatter.format_root opts node with
    | .error e => .panicked e
    | .ok out => .ok out

/-! ## Properties of the number model -/

theorem normIntPart_ne_nil (s : List Char) : normIntPart s ≠ [] := by
  cases hd : s.dropWhile (· == '0') with
  | nil => simp [normIntPart, hd]
  | cons c t => simp [normIntPart, hd]

theorem normIntPart_all_digit (s : List Char) (h : s.all Char.isDigit) :
    (normIntPart s).all Char.isDigit := by
  have hsub : ∀ x ∈ s.dropWhile (· == '0'), x.isDigit := by
    intro x hx
    exact List.all_eq_true.mp h x ((List.dropWhile_sublist _).subset hx)
  cases hd : s.dropWhile (· == '0') with
  | nil => simp [normIntPart, hd]
  | cons c t =>
    simp only [normIntPart, hd, List.isEmpty_cons, if_false, List.all_eq_true]
    intro x hx
    exact hsub x (hd ▸ hx)

theorem normIntPart_idem (s : List Char) : normIntPart (normIntPart s) = normIntPart s := by
  cases hd : s.dropWhile (· == '0') with
  | nil => simp [normIntPart, hd]
  | cons c t =>
    have h2 : (c :: t).dropWhile (· == '0') = c :: t := by
      rw [← hd]; exact List.dropWhile_idempotent _ _
    simp [normIntPart, hd, h2]

theorem normFracPart_all_digit (s : List Char) (h : s.all Char.isDigit) :
    (normFracPart s).all Char.isDigit := by
  unfold normFracPart
  simp only [List.all_eq_true] at *
  intro c hc
  simp only [List.mem_reverse] at hc
  exact h c (by simpa using (List.dropWhile_sublist _).subset hc)

theorem normFracPart_idem (s : List Char) : normFracPart (normFracPart s) = normFracPart s := by
  unfold normFracPart
  simp [List.dropWhile_idempotent]

theorem mem_of_mem_takeWhile {l : List Char} {p : Char → Bool} {a : Char}
    (h : a ∈ l.takeWhile p) : a ∈ l :=
  (List.takeWhile_sublist p).subset h

/-- Every value `f64FromChars` produces is in normal form. -/
theorem f64FromChars_WF {s : List Char} {n : F64} (h : f64FromChars s = some n) : n.WF := by
  unfold f64FromChars at h
  split at h
  · exact absurd h (by simp)
  · split at h
    · exact absurd h (by simp)
    · rename_i hne hall
      have hallc : ∀ c ∈ s, isF64Char c := by
        simpa [List.all_eq_true] using hall
      have hidig : (s.takeWhile (· ≠ '.')).all Char.isDigit := by
        simp only [List.all_eq_true]
        intro c hc
        have h1 : c ≠ '.' := by simpa using List.mem_takeWhile_imp hc
        have h2 : isF64Char c := hallc c (mem_of_mem_takeWhile hc)
        simp only [isF64Char, Bool.or_eq_true, beq_iff_eq] at h2
        rcases h2 with h2 | h2
        · exact h2
        · exact absurd h2 h1
      split at h
      · cases h
        exact ⟨(normIntPart_idem _).symm, rfl, normIntPart_all_digit _ hidig, by simp,
          normIntPart_ne_nil _⟩
      · rename_i c f hdrop
        split at h
        · exact absurd h (by simp)
        · split at h
          · exact absurd h (by simp)
          · rename_i hnodot hnonempty
            cases h
            have hfdig : f.all Char.isDigit := by
              simp only [List.all_eq_true]
              intro x hx
              have hxs : x ∈ s := by
                have hx2 : x ∈ s.dropWhile (· ≠ '.') := by
                  rw [hdrop]; exact List.mem_cons_of_mem _ hx
                exact (List.dropWhile_sublist _).subset hx2
              have h2 : isF64Char x := hallc x hxs
              simp only [isF64Char, Bool.or_eq_true, beq_iff_eq] at h2
              rcases h2 with h2 | h2
              · exact h2
              · exact absurd (by simp only [List.any_eq_true]; exact ⟨x, hx, by simp [h2]⟩) hnodot
            exact ⟨(normIntPart_idem _).symm, (normFracPart_idem _).symm,
              normIntPart_all_digit _ hidig, normFracPart_all_digit _ hfdig, normIntPart_ne_nil _⟩

/-- Display of a normal-form value parses back to the same value. -/
theorem F64.toChars_roundtrip {n : F64} (h : n.WF) : f64FromChars n.toChars = some n := by
  obtain ⟨i, f⟩ := n
  obtain ⟨hi, hf, hid, hfd, hne⟩ := h
  simp only at hi hf hid hfd hne
  have hidig : ∀ c ∈ i, c.isDigit := List.all_eq_true.mp hid
  have hfdig : ∀ c ∈ f, c.isDigit := List.all_eq_true.mp hfd
  have hinodot : ∀ c ∈ i, (fun x => decide (x ≠ '.')) c = true := by
    intro c hc
    have hd := hidig c hc
    simp only [decide_eq_true_eq]
    intro hcc
    rw [hcc] at hd
    exact absurd hd (by decide)
  cases hfe : f.isEmpty
  · -- f nonempty
    have hfne : f ≠ [] := by simpa [List.isEmpty_iff] using hfe
    have htc : F64.toChars ⟨i, f⟩ = i ++ '.' :: f := by
      simp [F64.toChars, hfe]
    rw [htc]
    unfold f64FromChars
    have hemp : (i ++ '.' :: f).isEmpty = false := by simp
    have hall : (i ++ '.' :: f).all isF64Char = true := by
      simp only [List.all_append, List.all_cons, Bool.and_eq_true, List.all_eq_true]
      exact ⟨fun c hc => by simp [isF64Char, hidig c hc],
        by simp [isF64Char], fun c hc => by simp [isF64Char, hfdig c hc]⟩
    have htake : (i ++ '.' :: f).takeWhile (· ≠ '.') = i := by
      rw [List.takeWhile_append_of_pos hinodot]
      simp [List.takeWhile]
    have hdrop : (i ++ '.' :: f).dropWhile (· ≠ '.') = '.' :: f := by
      rw [List.dropWhile_append_of_pos hinodot]
      simp [List.dropWhile]
    rw [hemp, hall, hdrop]
    simp only [Bool.false_eq_true, if_false, Bool.not_true]
    have hnodot : (f.any (· = '.')) = false := by
      simp only [List.any_eq_false]
      intro c hc
      have hd := hfdig c hc
      simp only [decide_eq_true_eq]
      intro hcc
      rw [hcc] at hd
      exact absurd hd (by decide)
    rw [hnodot, htake]
    have hie : i.isEmpty = false := by simpa [List.isEmpty_iff] using hne
    simp only [Bool.false_eq_true, if_false, hie, Bool.false_and]
    rw [← hi, ← hf]
  · -- f empty
    have hfnil : f = [] := by simpa [List.isEmpty_iff] using hfe
    subst hfnil
    have htc : F64.toChars ⟨i, []⟩ = i := by simp [F64.toChars]
    rw [htc]
    unfold f64FromChars
    have hemp : i.isEmpty = false := by simpa [List.isEmpty_iff] using hne
    have hall : i.all isF64Char = true := by
      simp only [List.all_eq_true]
      exact fun c hc => by simp [isF64Char, hidig c hc]
    have hdrop : i.dropWhile (· ≠ '.') = [] := List.dropWhile_eq_nil_iff.mpr hinodot
    have htake : i.takeWhile (· ≠ '.') = i := List.takeWhile_eq_self_iff.mpr hinodot
    rw [hemp, hall, hdrop]
    simp only [Bool.false_eq_true, if_false, Bool.not_true]
    rw [htake, ← hi]


/-! ## Lexer lemmas -/

/-- Leading zeros do not change a digit string's value. -/
theorem natOfDigits_cons_zero (s : List Char) : natOfDigits ('0' :: s) = natOfDigits s := rfl

theorem natOfDigits_dropZeros : ∀ s : List Char,
    natOfDigits (s.dropWhile (· == '0')) = natOfDigits s := by
  intro s
  induction s with
  | nil => rfl
  | cons c cs ih =>
    by_cases hc : c = '0'
    · subst hc
      rw [List.dropWhile_cons_of_pos (by simp), ih, natOfDigits_cons_zero]
    · rw [List.dropWhile_cons_of_neg (by simp [hc])]

theorem natOfDigits_normIntPart (s : List Char) :
    natOfDigits (normIntPart s) = natOfDigits s := by
  cases hd : s.dropWhile (· == '0') with
  | nil =>
    have h0 : natOfDigits s = 0 := by
      rw [← natOfDigits_dropZeros s, hd]
      rfl
    simp only [normIntPart, hd, List.isEmpty_nil, if_true]
    rw [h0]
    rfl
  | cons c t =>
    have h1 : natOfDigits s = natOfDigits (c :: t) := by
      rw [← natOfDigits_dropZeros s, hd]
    simp only [normIntPart, hd, List.isEmpty_cons, Bool.false_eq_true, if_false]
    rw [h1]

/-- The integer part every `f64FromChars` result stores. -/
theorem f64FromChars_intPart {s : List Char} {n : F64} (h : f64FromChars s = some n) :
    n.intPart = normIntPart (s.takeWhile (· ≠ '.')) := by
  unfold f64FromChars at h
  split at h
  · exact absurd h (by simp)
  · split at h
    · exact absurd h (by simp)
    · split at h
      · cases h
        rfl
      · split at h
        · exact absurd h (by simp)
        · split at h
          · exact absurd h (by simp)
          · cases h
            rfl

/-- Every value `parseF64` produces is a well-formed finite number or
infinity. -/
theorem parseF64_WFx {s : List Char} {v : FNum} (h : parseF64 s = some v) :
    v.WF ∨ v = .inf := by
  unfold parseF64 at h
  cases hf : f64FromChars s <;> rw [hf] at h
  · cases h
  · rename_i n
    dsimp only at h
    split at h
    · simp only [Option.some.injEq] at h
      exact Or.inr h.symm
    · rename_i hT
      simp only [Option.some.injEq] at h
      rw [← h]
      left
      refine ⟨f64FromChars_WF hf, ?_⟩
      rw [f64FromChars_intPart hf, natOfDigits_normIntPart]
      omega

/-- Display of a well-formed finite number parses back to the same
value: the string is in range, so no overflow fires. -/
theorem parseF64_toChars_roundtrip {v : FNum} (h : v.WF) :
    parseF64 v.toChars = some v := by
  cases v with
  | inf => exact absurd h (by simp [FNum.WF])
  | finite n =>
    obtain ⟨hn, hT⟩ := h
    have hdig : ∀ c ∈ n.intPart, (fun x => decide (x ≠ '.')) c = true := by
      intro c hc
      have := List.all_eq_true.mp hn.2.2.1 c hc
      simp only [decide_eq_true_eq]
      intro he
      rw [he] at this
      exact absurd this (by decide)
    have htake : (FNum.toChars (.finite n)).takeWhile (· ≠ '.') = n.intPart := by
      show (n.intPart ++ if n.fracPart.isEmpty then [] else '.' :: n.fracPart).takeWhile
        (· ≠ '.') = n.intPart
      rw [List.takeWhile_append_of_pos hdig]
      split
      · simp
      · rw [List.takeWhile_cons_of_neg (by simp)]
        simp
    unfold parseF64
    rw [show FNum.toChars (.finite n) = n.toChars from rfl] at htake ⊢
    rw [F64.toChars_roundtrip hn, htake]
    dsimp only
    rw [if_neg (by omega)]

theorem Lexer.consume_char_length {cs cs' : List Char} {t : Token}
    (h : Lexer.consume_char cs = .ok (t, cs')) : cs'.length < cs.length := by
  unfold Lexer.consume_char at h
  split at h
  · split at h
    · simp only [Except.ok.injEq, Prod.mk.injEq] at h
      rw [← h.2]
      simp
    · exact Except.noConfusion h
  · exact Except.noConfusion h

theorem Lexer.consume_string_rest_length {cs cs' : List Char} {t : Token}
    (h : Lexer.consume_string_rest cs = .ok (t, cs')) : cs'.length ≤ cs.length - 1 := by
  unfold Lexer.consume_string_rest at h
  split at h
  · rename_i q rest' hdrop
    simp only [Except.ok.injEq, Prod.mk.injEq] at h
    rw [← h.2]
    have h1 : (q :: rest').length ≤ cs.length := hdrop ▸ (List.dropWhile_sublist _).length_le
    simp only [List.length_cons] at h1
    omega
  · exact Except.noConfusion h

theorem Lexer.consume_string_length {c : Char} {rest cs' : List Char} {t : Token}
    (hq : c = '"') (h : Lexer.consume_string (c :: rest) = .ok (t, cs')) :
    cs'.length < (c :: rest).length := by
  unfold Lexer.consume_string at h
  rw [if_pos (by rw [hq]; rfl)] at h
  have h2 := Lexer.consume_string_rest_length h
  simp only [List.tail_cons] at h2
  simp only [List.length_cons]
  omega

theorem Lexer.consume_number_length {c : Char} {rest cs' : List Char} {t : Token}
    (hc : isF64Char c) (h : Lexer.consume_number (c :: rest) = .ok (t, cs')) :
    cs'.length < (c :: rest).length := by
  unfold Lexer.consume_number at h
  split at h
  · simp only [Except.ok.injEq, Prod.mk.injEq] at h
    rw [← h.2, List.dropWhile_cons_of_pos hc]
    have h2 : (rest.dropWhile isF64Char).length ≤ rest.length :=
      (List.dropWhile_sublist _).length_le
    simp only [List.length_cons]
    omega
  · exact Except.noConfusion h

theorem Lexer.consume_keyword_length {c : Char} {rest cs' : List Char} {t : Token}
    (hc : c.isAlphanum) (h : Lexer.consume_keyword (c :: rest) = .ok (t, cs')) :
    cs'.length < (c :: rest).length := by
  unfold Lexer.consume_keyword at h
  split at h
  · simp only [Except.ok.injEq, Prod.mk.injEq] at h
    rw [← h.2, List.dropWhile_cons_of_pos hc]
    have h2 : (rest.dropWhile Char.isAlphanum).length ≤ rest.length :=
      (List.dropWhile_sublist _).length_le
    simp only [List.length_cons]
    omega
  · exact Except.noConfusion h

/-- Any token other than `End` consumes at least one character. -/
theorem Lexer.next_token_progress {cs cs' : List Char} {t : Token}
    (h : Lexer.next_token cs = .ok (t, cs')) (ht : t ≠ Token.End) :
    cs'.length < cs.length := by
  unfold Lexer.next_token at h
  have hlen : (cs.dropWhile Char.isWhitespace).length ≤ cs.length :=
    (List.dropWhile_sublist _).length_le
  cases hd : cs.dropWhile Char.isWhitespace with
  | nil =>
    rw [hd] at h
    simp only [Lexer.next_token_at, List.head?_nil, Except.ok.injEq, Prod.mk.injEq] at h
    exact absurd h.1.symm ht
  | cons c rest =>
    rw [hd] at h hlen
    simp only [Lexer.next_token_at, List.head?_cons] at h
    split_ifs at h with h1 h2 h3 h4
    · exact lt_of_lt_of_le (Lexer.consume_char_length h) hlen
    · exact lt_of_lt_of_le (Lexer.consume_string_length h2 h) hlen
    · exact lt_of_lt_of_le (Lexer.consume_number_length (by simp [isF64Char, h3]) h) hlen
    · exact lt_of_lt_of_le (Lexer.consume_keyword_length (by simp [Char.isAlphanum, h4]) h) hlen


/-- One step of the tokenize loop: lexing panic. -/
theorem Lexer.tokenizeGo_succ_error {f : Nat} {cs : List Char} {e : String}
    (h : Lexer.next_token cs = .error e) :
    Lexer.tokenizeGo (f + 1) cs = some (.error e) := by
  unfold Lexer.tokenizeGo
  rw [h]

/-- One step of the tokenize loop: end of input. -/
theorem Lexer.tokenizeGo_succ_end {f : Nat} {cs cs' : List Char}
    (h : Lexer.next_token cs = .ok (Token.End, cs')) :
    Lexer.tokenizeGo (f + 1) cs = some (.ok [Token.End]) := by
  unfold Lexer.tokenizeGo
  rw [h]
  rfl

/-- One step of the tokenize loop: an ordinary token. -/
theorem Lexer.tokenizeGo_succ_ok {f : Nat} {cs cs' : List Char} {t : Token}
    (h : Lexer.next_token cs = .ok (t, cs')) (ht : t ≠ Token.End) :
    Lexer.tokenizeGo (f + 1) cs =
      match Lexer.tokenizeGo f cs' with
      | none => none
      | some (.error e) => some (.error e)
      | some (.ok ts) => some (.ok (t :: ts)) := by
  have he : Lexer.tokenizeGo (f + 1) cs =
      (match Lexer.next_token cs with
      | .error e => some (.error e)
      | .ok (t', cs'') =>
        if t' = Token.End then some (.ok [Token.End])
        else
          match Lexer.tokenizeGo f cs'' with
          | none => none
          | some (.error e) => some (.error e)
          | some (.ok ts) => some (.ok (t' :: ts))) := rfl
  rw [he, h]
  simp only [if_neg ht]

/-- The fueled tokenize loop is monotone in the fuel. -/
theorem Lexer.tokenizeGo_mono : ∀ {f f' : Nat} {cs : List Char} {r},
    Lexer.tokenizeGo f cs = some r → f ≤ f' → Lexer.tokenizeGo f' cs = some r := by
  intro f
  induction f with
  | zero => intro f' cs r h; exact absurd h (by simp [Lexer.tokenizeGo])
  | succ f ih =>
    intro f' cs r h hle
    obtain ⟨f'', rfl⟩ : ∃ f'', f' = f'' + 1 := ⟨f' - 1, by omega⟩
    cases hnt : Lexer.next_token cs with
    | error e =>
      rw [Lexer.tokenizeGo_succ_error hnt] at h ⊢
      exact h
    | ok tc =>
      obtain ⟨t, cs'⟩ := tc
      by_cases ht : t = Token.End
      · subst ht
        rw [Lexer.tokenizeGo_succ_end hnt] at h ⊢
        exact h
      · rw [Lexer.tokenizeGo_succ_ok hnt ht] at h ⊢
        cases hrec : Lexer.tokenizeGo f cs' with
        | none => rw [hrec] at h; exact absurd h (by simp)
        | some r' =>
          rw [hrec] at h
          rw [ih hrec (by omega)]
          exact h

/-- With fuel exceeding the input length the tokenize loop always
completes. -/
theorem Lexer.tokenizeGo_suff : ∀ (f : Nat) (cs : List Char), cs.length < f →
    Lexer.tokenizeGo f cs ≠ none := by
  intro f
  induction f with
  | zero => intro cs h; omega
  | succ f ih =>
    intro cs hlen
    cases hnt : Lexer.next_token cs with
    | error e => rw [Lexer.tokenizeGo_succ_error hnt]; simp
    | ok tc =>
      obtain ⟨t, cs'⟩ := tc
      by_cases ht : t = Token.End
      · subst ht
        rw [Lexer.tokenizeGo_succ_end hnt]
        simp
      · rw [Lexer.tokenizeGo_succ_ok hnt ht]
        have hp : cs'.length < cs.length := Lexer.next_token_progress hnt ht
        have hrec := ih cs' (by omega)
        cases hx : Lexer.tokenizeGo f cs' with
        | none => exact absurd hx hrec
        | some r => cases r with
          | error e => simp
          | ok ts => simp

/-- Unfold `Lexer.tokenize` one step: a lexing panic. -/
theorem Lexer.tokenize_error {cs : List Char} {e : String}
    (h : Lexer.next_token cs = .error e) : Lexer.tokenize cs = .error e := by
  unfold Lexer.tokenize
  rw [Lexer.tokenizeGo_succ_error h]
  rfl

/-- Unfold `Lexer.tokenize` one step: the end of the input. -/
theorem Lexer.tokenize_end {cs cs' : List Char}
    (h : Lexer.next_token cs = .ok (Token.End, cs')) : Lexer.tokenize cs = .ok [Token.End] := by
  unfold Lexer.tokenize
  rw [Lexer.tokenizeGo_succ_end h]
  rfl

/-- Unfold `Lexer.tokenize` one step: an ordinary token followed by the
rest of the stream. -/
theorem Lexer.tokenize_cons {cs cs' : List Char} {t : Token}
    (h : Lexer.next_token cs = .ok (t, cs')) (ht : t ≠ Token.End) :
    Lexer.tokenize cs =
      match Lexer.tokenize cs' with
      | .error e => .error e
      | .ok ts => .ok (t :: ts) := by
  have hp : cs'.length < cs.length := Lexer.next_token_progress h ht
  have hsuff : Lexer.tokenizeGo (cs'.length + 1) cs' ≠ none :=
    Lexer.tokenizeGo_suff _ _ (by omega)
  obtain ⟨r, hr⟩ : ∃ r, Lexer.tokenizeGo (cs'.length + 1) cs' = some r := by
    cases hx : Lexer.tokenizeGo (cs'.length + 1) cs' with
    | none => exact absurd hx hsuff
    | some r => exact ⟨r, rfl⟩
  have hr2 : Lexer.tokenizeGo cs.length cs' = some r :=
    Lexer.tokenizeGo_mono hr (by omega)
  have hR : Lexer.tokenize cs' = r := by
    unfold Lexer.tokenize
    rw [hr]
    rfl
  cases r with
  | error e =>
    have hL : Lexer.tokenize cs = Except.error e := by
      unfold Lexer.tokenize
      rw [Lexer.tokenizeGo_succ_ok h ht, hr2]
      rfl
    rw [hL, hR]
  | ok ts =>
    have hL : Lexer.tokenize cs = Except.ok (t :: ts) := by
      unfold Lexer.tokenize
      rw [Lexer.tokenizeGo_succ_ok h ht, hr2]
      rfl
    rw [hL, hR]


/-- Well-formedness the lexer guarantees for every produced token: a
string payload never contains a quote (the loop stops at the first one),
and a number payload is a finite value in normal form or the overflowed
value infinity. -/
def Token.WF : Token → Prop
  | .StringValue s => '"' ∉ s
  | .NumberValue n => n.WF ∨ n = .inf
  | _ => True

instance (t : Token) : Decidable t.WF := by
  unfold Token.WF; cases t <;> infer_instance

theorem Lexer.consume_char_WF {cs cs' : List Char} {t : Token}
    (h : Lexer.consume_char cs = .ok (t, cs')) : t.WF := by
  unfold Lexer.consume_char at h
  split at h
  · rename_i c rest
    unfold CHAR_TOKENS at h
    split_ifs at h <;>
      simp only [Option.some.injEq, Except.ok.injEq, Prod.mk.injEq] at h <;>
      (rw [← h.1]; trivial)
  · exact Except.noConfusion h

theorem Lexer.consume_string_rest_WF {cs cs' : List Char} {t : Token}
    (h : Lexer.consume_string_rest cs = .ok (t, cs')) : t.WF := by
  unfold Lexer.consume_string_rest at h
  split at h
  · simp only [Except.ok.injEq, Prod.mk.injEq] at h
    rw [← h.1]
    intro hmem
    have := List.mem_takeWhile_imp hmem
    simp at this
  · exact Except.noConfusion h

theorem Lexer.consume_string_WF {cs cs' : List Char} {t : Token}
    (h : Lexer.consume_string cs = .ok (t, cs')) : t.WF := by
  unfold Lexer.consume_string at h
  exact Lexer.consume_string_rest_WF h

theorem Lexer.consume_number_WF {cs cs' : List Char} {t : Token}
    (h : Lexer.consume_number cs = .ok (t, cs')) : t.WF := by
  unfold Lexer.consume_number at h
  split at h
  · rename_i n hn
    simp only [Except.ok.injEq, Prod.mk.injEq] at h
    rw [← h.1]
    exact parseF64_WFx hn
  · exact Except.noConfusion h

theorem Lexer.consume_keyword_WF {cs cs' : List Char} {t : Token}
    (h : Lexer.consume_keyword cs = .ok (t, cs')) : t.WF := by
  unfold Lexer.consume_keyword at h
  split at h
  · rename_i t' ht'
    unfold KEYWORD_TOKENS at ht'
    simp only [Except.ok.injEq, Prod.mk.injEq] at h
    split_ifs at ht' <;>
      (injection ht' with h1; rw [← h.1, ← h1]; trivial)
  · exact Except.noConfusion h

theorem Lexer.next_token_WF {cs cs' : List Char} {t : Token}
    (h : Lexer.next_token cs = .ok (t, cs')) : t.WF := by
  unfold Lexer.next_token at h
  cases hd : (cs.dropWhile Char.isWhitespace) with
  | nil =>
    rw [hd] at h
    simp only [Lexer.next_token_at, List.head?_nil, Except.ok.injEq, Prod.mk.injEq] at h
    rw [← h.1]
    trivial
  | cons c rest =>
    rw [hd] at h
    simp only [Lexer.next_token_at, List.head?_cons] at h
    split_ifs at h with h1 h2 h3 h4
    · exact Lexer.consume_char_WF h
    · exact Lexer.consume_string_WF h
    · exact Lexer.consume_number_WF h
    · exact Lexer.consume_keyword_WF h

/-- Every token a successful tokenization produces is well formed. -/
theorem Lexer.tokenizeGo_WF : ∀ {f : Nat} {cs : List Char} {ts : List Token},
    Lexer.tokenizeGo f cs = some (.ok ts) → ∀ t ∈ ts, t.WF := by
  intro f
  induction f with
  | zero => intro cs ts h; exact absurd h (by simp [Lexer.tokenizeGo])
  | succ f ih =>
    intro cs ts h
    cases hnt : Lexer.next_token cs with
    | error e =>
      rw [Lexer.tokenizeGo_succ_error hnt] at h
      simp at h
    | ok tc =>
      obtain ⟨t, cs'⟩ := tc
      by_cases ht : t = Token.End
      · subst ht
        rw [Lexer.tokenizeGo_succ_end hnt] at h
        simp only [Option.some.injEq, Except.ok.injEq] at h
        subst h
        intro t htm
        simp only [List.mem_singleton] at htm
        subst htm
        trivial
      · rw [Lexer.tokenizeGo_succ_ok hnt ht] at h
        cases hrec : Lexer.tokenizeGo f cs' with
        | none => rw [hrec] at h; exact absurd h (by simp)
        | some r =>
          rw [hrec] at h
          cases r with
          | error e => simp at h
          | ok ts' =>
            simp only [Option.some.injEq, Except.ok.injEq] at h
            subst h
            intro x hx
            rcases List.mem_cons.mp hx with hx | hx
            · exact hx ▸ Lexer.next_token_WF hnt
            · exact ih hrec x hx

/-- Every token of a successful `Lexer.tokenize` run is well formed. -/
theorem Lexer.tokenize_WF {cs : List Char} {ts : List Token}
    (h : Lexer.tokenize cs = .ok ts) : ∀ t ∈ ts, t.WF := by
  unfold Lexer.tokenize at h
  cases hx : Lexer.tokenizeGo (cs.length + 1) cs with
  | none => rw [hx] at h; exact Except.noConfusion h
  | some r =>
    rw [hx] at h
    cases r with
    | error e => exact Except.noConfusion h
    | ok ts' =>
      have : ts' = ts := by simpa using h
      subst this
      exact Lexer.tokenizeGo_WF hx


theorem Parser.consume_string_shape {toks rest : List Token} {n : Node}
    (h : Parser.consume_string toks = .ok n rest) : ∃ x, toks = x :: rest := by
  unfold Parser.consume_string at h
  split at h
  · rename_i v r
    simp only [PRes.ok.injEq] at h
    exact ⟨_, by rw [h.2]⟩
  · exact PRes.noConfusion h
  · exact PRes.noConfusion h

theorem Parser.consume_number_shape {toks rest : List Token} {n : Node}
    (h : Parser.consume_number toks = .ok n rest) : ∃ x, toks = x :: rest := by
  unfold Parser.consume_number at h
  split at h
  · simp only [PRes.ok.injEq] at h
    exact ⟨_, by rw [h.2]⟩
  · exact PRes.noConfusion h
  · exact PRes.noConfusion h

theorem Parser.consume_keyword_shape {toks rest : List Token} {n : Node}
    (h : Parser.consume_keyword toks = .ok n rest) : ∃ x, toks = x :: rest := by
  unfold Parser.consume_keyword at h
  split at h <;> first
    | (simp only [PRes.ok.injEq] at h; exact ⟨_, by rw [h.2]⟩)
    | exact PRes.noConfusion h

/-- Every successful production consumes at least one token. -/
theorem Parser.consumed : ∀ f : Nat,
    (∀ {toks n rest}, Parser.consume_value f toks = some (.ok n rest) →
      rest.length < toks.length) ∧
    (∀ {toks n rest}, Parser.consume_object f toks = some (.ok n rest) →
      rest.length < toks.length) ∧
    (∀ {toks n rest}, Parser.consume_array f toks = some (.ok n rest) →
      rest.length < toks.length) ∧
    (∀ {toks n rest}, Parser.consume_property_assignment f toks = some (.ok n rest) →
      rest.length < toks.length) ∧
    (∀ {toks ns rest}, Parser.consume_object_loop f toks = some (.ok ns rest) →
      rest.length < toks.length) ∧
    (∀ {toks ns rest}, Parser.consume_array_loop f toks = some (.ok ns rest) →
      rest.length < toks.length) := by
  intro f
  induction f with
  | zero =>
    refine ⟨?_, ?_, ?_, ?_, ?_, ?_⟩ <;>
      (intro toks a b h; exact absurd h (by simp [Parser.consume_value, Parser.consume_object,
        Parser.consume_array, Parser.consume_property_assignment,
        Parser.consume_object_loop, Parser.consume_array_loop]))
  | succ f ih =>
    obtain ⟨ihV, ihO, ihA, ihPA, ihOL, ihAL⟩ := ih
    have hPA : ∀ {toks : List Token} {n rest}, Parser.consume_property_assignment (f + 1) toks =
        some (.ok n rest) → rest.length < toks.length := by
      intro toks n rest h
      cases toks with
      | nil => simp [Parser.consume_property_assignment] at h
      | cons t tl =>
        cases t with
        | StringValue s =>
          simp only [Parser.consume_property_assignment, List.head?_cons, List.tail_cons] at h
          cases hv : Parser.consume_value f tl.tail with
          | none => rw [hv] at h; exact absurd h (by simp)
          | some r =>
            rw [hv] at h
            cases r with
            | ok v vrest =>
              simp only [Option.some.injEq, PRes.ok.injEq] at h
              have h1 := ihV (hv.trans (by rw [h.2]))
              have h2 : tl.tail.length ≤ tl.length := by
                cases tl <;> simp
              simp only [List.length_cons]
              omega
            | err e => simp at h
            | panicked e => simp at h
        | LBrace => simp [Parser.consume_property_assignment] at h
        | RBrace => simp [Parser.consume_property_assignment] at h
        | LBracket => simp [Parser.consume_property_assignment] at h
        | RBracket => simp [Parser.consume_property_assignment] at h
        | Colon => simp [Parser.consume_property_assignment] at h
        | Comma => simp [Parser.consume_property_assignment] at h
        | NumberValue v => simp [Parser.consume_property_assignment] at h
        | BooleanValue b => simp [Parser.consume_property_assignment] at h
        | NullValue => simp [Parser.consume_property_assignment] at h
        | End => simp [Parser.consume_property_assignment] at h
    have hO : ∀ {toks : List Token} {n rest}, Parser.consume_object (f + 1) toks =
        some (.ok n rest) → rest.length < toks.length := by
      intro toks n rest h
      simp only [Parser.consume_object] at h
      cases hol : Parser.consume_object_loop f toks.tail with
      | none => rw [hol] at h; exact absurd h (by simp)
      | some r =>
        rw [hol] at h
        cases r with
        | ok pas lrest =>
          simp only [Option.some.injEq, PRes.ok.injEq] at h
          have h1 := ihOL (hol.trans (by rw [h.2]))
          have h2 : toks.tail.length ≤ toks.length := by cases toks <;> simp
          omega
        | err e => simp at h
        | panicked e => simp at h
    have hA : ∀ {toks : List Token} {n rest}, Parser.consume_array (f + 1) toks =
        some (.ok n rest) → rest.length < toks.length := by
      intro toks n rest h
      simp only [Parser.consume_array] at h
      cases hal : Parser.consume_array_loop f toks.tail with
      | none => rw [hal] at h; exact absurd h (by simp)
      | some r =>
        rw [hal] at h
        cases r with
        | ok es lrest =>
          simp only [Option.some.injEq, PRes.ok.injEq] at h
          have h1 := ihAL (hal.trans (by rw [h.2]))
          have h2 : toks.tail.length ≤ toks.length := by cases toks <;> simp
          omega
        | err e => simp at h
        | panicked e => simp at h
    have hV : ∀ {toks : List Token} {n rest}, Parser.consume_value (f + 1) toks =
        some (.ok n rest) → rest.length < toks.length := by
      intro toks n rest h
      cases toks with
      | nil => simp [Parser.consume_value] at h
      | cons t tl =>
        cases t with
        | StringValue s =>
          simp only [Parser.consume_value, List.head?_cons, Option.some.injEq] at h
          obtain ⟨x, hx⟩ := Parser.consume_string_shape h
          simp only [List.cons.injEq] at hx
          simp [hx.2]
        | NumberValue v =>
          simp only [Parser.consume_value, List.head?_cons, Option.some.injEq] at h
          obtain ⟨x, hx⟩ := Parser.consume_number_shape h
          simp only [List.cons.injEq] at hx
          simp [hx.2]
        | BooleanValue b =>
          simp only [Parser.consume_value, List.head?_cons, Option.some.injEq] at h
          obtain ⟨x, hx⟩ := Parser.consume_keyword_shape h
          simp only [List.cons.injEq] at hx
          simp [hx.2]
        | NullValue =>
          simp only [Parser.consume_value, List.head?_cons, Option.some.injEq] at h
          obtain ⟨x, hx⟩ := Parser.consume_keyword_shape h
          simp only [List.cons.injEq] at hx
          simp [hx.2]
        | LBrace =>
          simp only [Parser.consume_value, List.head?_cons] at h
          exact ihO h
        | LBracket =>
          simp only [Parser.consume_value, List.head?_cons] at h
          exact ihA h
        | RBrace => simp [Parser.consume_value] at h
        | RBracket => simp [Parser.consume_value] at h
        | Colon => simp [Parser.consume_value] at h
        | Comma => simp [Parser.consume_value] at h
        | End => simp [Parser.consume_value] at h
    have hOL : ∀ {toks : List Token} {ns rest}, Parser.consume_object_loop (f + 1) toks =
        some (.ok ns rest) → rest.length < toks.length := by
      intro toks ns rest h
      cases toks with
      | nil => simp [Parser.consume_object_loop] at h
      | cons t tl =>
        cases t with
        | RBrace =>
          simp only [Parser.consume_object_loop, List.head?_cons, List.tail_cons,
            Option.some.injEq, PListRes.ok.injEq] at h
          obtain ⟨h1, h2⟩ := h
          subst h2
          simp
        | StringValue s =>
          simp only [Parser.consume_object_loop, List.head?_cons] at h
          cases hpa : Parser.consume_property_assignment f (Token.StringValue s :: tl) with
          | none => rw [hpa] at h; exact absurd h (by simp)
          | some r =>
            rw [hpa] at h
            cases r with
            | ok pa parest =>
              dsimp only at h
              cases hol2 : Parser.consume_object_loop f parest with
              | none => rw [hol2] at h; exact absurd h (by simp)
              | some r2 =>
                rw [hol2] at h
                cases r2 with
                | ok pas rest2 =>
                  simp only [Option.some.injEq, PListRes.ok.injEq] at h
                  have h1 := ihPA hpa
                  have h2 := ihOL (hol2.trans (by rw [h.2]))
                  omega
                | err e => simp at h
                | panicked e => simp at h
            | err e => simp at h
            | panicked e => simp at h
        | Comma =>
          simp only [Parser.consume_object_loop, List.head?_cons, List.tail_cons] at h
          have h1 := ihOL h
          simp only [List.length_cons]
          omega
        | LBrace => simp [Parser.consume_object_loop] at h
        | LBracket => simp [Parser.consume_object_loop] at h
        | RBracket => simp [Parser.consume_object_loop] at h
        | Colon => simp [Parser.consume_object_loop] at h
        | NumberValue v => simp [Parser.consume_object_loop] at h
        | BooleanValue b => simp [Parser.consume_object_loop] at h
        | NullValue => simp [Parser.consume_object_loop] at h
        | End => simp [Parser.consume_object_loop] at h
    have hAL : ∀ {toks : List Token} {ns rest}, Parser.consume_array_loop (f + 1) toks =
        some (.ok ns rest) → rest.length < toks.length := by
      have harm : ∀ {t0 : Token} {tl : List Token} {ns rest},
          Parser.consume_array_loop (f + 1) (t0 :: tl) = some (.ok ns rest) →
          (Parser.consume_array_loop (f + 1) (t0 :: tl) =
            match Parser.consume_value f (t0 :: tl) with
            | some (.ok v vrest) =>
              match Parser.consume_array_loop f vrest with
              | some (.ok es rest') => some (.ok (v :: es) rest')
              | r => r
            | some (.err e) => some (.err e)
            | some (.panicked e) => some (.panicked e)
            | none => none) →
          rest.length < (t0 :: tl).length := by
        intro t0 tl ns rest h heq
        rw [heq] at h
        cases hv : Parser.consume_value f (t0 :: tl) with
        | none => rw [hv] at h; exact absurd h (by simp)
        | some r =>
          rw [hv] at h
          cases r with
          | ok v vrest =>
            dsimp only at h
            cases hal2 : Parser.consume_array_loop f vrest with
            | none => rw [hal2] at h; exact absurd h (by simp)
            | some r2 =>
              rw [hal2] at h
              cases r2 with
              | ok es rest2 =>
                simp only [Option.some.injEq, PListRes.ok.injEq] at h
                have h1 := ihV hv
                have h2 := ihAL (hal2.trans (by rw [h.2]))
                omega
              | err e => simp at h
              | panicked e => simp at h
          | err e => simp at h
          | panicked e => simp at h
      intro toks ns rest h
      cases toks with
      | nil => simp [Parser.consume_array_loop] at h
      | cons t tl =>
        cases t with
        | RBracket =>
          simp only [Parser.consume_array_loop, List.head?_cons, List.tail_cons,
            Option.some.injEq, PListRes.ok.injEq] at h
          obtain ⟨h1, h2⟩ := h
          subst h2
          simp
        | Comma =>
          simp only [Parser.consume_array_loop, List.head?_cons, List.tail_cons] at h
          have h1 := ihAL h
          simp only [List.length_cons]
          omega
        | StringValue s => exact harm h (by simp [Parser.consume_array_loop])
        | NumberValue v => exact harm h (by simp [Parser.consume_array_loop])
        | BooleanValue b => exact harm h (by simp [Parser.consume_array_loop])
        | NullValue => exact harm h (by simp [Parser.consume_array_loop])
        | LBrace => exact harm h (by simp [Parser.consume_array_loop])
        | LBracket => exact harm h (by simp [Parser.consume_array_loop])
        | RBrace => simp [Parser.consume_array_loop] at h
        | Colon => simp [Parser.consume_array_loop] at h
        | End => simp [Parser.consume_array_loop] at h
    exact ⟨hV, hO, hA, hPA, hOL, hAL⟩


/-- All fueled productions are monotone in the fuel. -/
theorem Parser.mono : ∀ f : Nat,
    (∀ {f' : Nat} {toks r}, f ≤ f' → Parser.consume_value f toks = some r →
      Parser.consume_value f' toks = some r) ∧
    (∀ {f' : Nat} {toks r}, f ≤ f' → Parser.consume_object f toks = some r →
      Parser.consume_object f' toks = some r) ∧
    (∀ {f' : Nat} {toks r}, f ≤ f' → Parser.consume_array f toks = some r →
      Parser.consume_array f' toks = some r) ∧
    (∀ {f' : Nat} {toks r}, f ≤ f' → Parser.consume_property_assignment f toks = some r →
      Parser.consume_property_assignment f' toks = some r) ∧
    (∀ {f' : Nat} {toks r}, f ≤ f' → Parser.consume_object_loop f toks = some r →
      Parser.consume_object_loop f' toks = some r) ∧
    (∀ {f' : Nat} {toks r}, f ≤ f' → Parser.consume_array_loop f toks = some r →
      Parser.consume_array_loop f' toks = some r) := by
  intro f
  induction f with
  | zero =>
    refine ⟨?_, ?_, ?_, ?_, ?_, ?_⟩ <;>
      (intro f' toks r hle h; exact absurd h (by simp [Parser.consume_value,
        Parser.consume_object, Parser.consume_array, Parser.consume_property_assignment,
        Parser.consume_object_loop, Parser.consume_array_loop]))
  | succ f ih =>
    obtain ⟨ihV, ihO, ihA, ihPA, ihOL, ihAL⟩ := ih
    have hPA : ∀ {f' : Nat} {toks r}, f + 1 ≤ f' →
        Parser.consume_property_assignment (f + 1) toks = some r →
        Parser.consume_property_assignment f' toks = some r := by
      intro f' toks r hle h
      obtain ⟨f'', rfl⟩ : ∃ f'', f' = f'' + 1 := ⟨f' - 1, by omega⟩
      cases toks with
      | nil =>
        simp only [Parser.consume_property_assignment, List.head?_nil] at h ⊢
        exact h
      | cons t tl =>
        cases t with
        | StringValue s =>
          simp only [Parser.consume_property_assignment, List.head?_cons, List.tail_cons] at h ⊢
          cases hv : Parser.consume_value f tl.tail with
          | none => rw [hv] at h; exact absurd h (by simp)
          | some rv =>
            rw [hv] at h
            rw [ihV (by omega) hv]
            cases rv with
            | ok v vrest => dsimp only at h ⊢; exact h
            | err e => exact h
            | panicked e => exact h
        | LBrace => simp only [Parser.consume_property_assignment, List.head?_cons] at h ⊢; exact h
        | RBrace => simp only [Parser.consume_property_assignment, List.head?_cons] at h ⊢; exact h
        | LBracket => simp only [Parser.consume_property_assignment, List.head?_cons] at h ⊢; exact h
        | RBracket => simp only [Parser.consume_property_assignment, List.head?_cons] at h ⊢; exact h
        | Colon => simp only [Parser.consume_property_assignment, List.head?_cons] at h ⊢; exact h
        | Comma => simp only [Parser.consume_property_assignment, List.head?_cons] at h ⊢; exact h
        | NumberValue v => simp only [Parser.consume_property_assignment, List.head?_cons] at h ⊢; exact h
        | BooleanValue b => simp only [Parser.consume_property_assignment, List.head?_cons] at h ⊢; exact h
        | NullValue => simp only [Parser.consume_property_assignment, List.head?_cons] at h ⊢; exact h
        | End => simp only [Parser.consume_property_assignment, List.head?_cons] at h ⊢; exact h
    have hOL : ∀ {f' : Nat} {toks r}, f + 1 ≤ f' →
        Parser.consume_object_loop (f + 1) toks = some r →
        Parser.consume_object_loop f' toks = some r := by
      intro f' toks r hle h
      obtain ⟨f'', rfl⟩ : ∃ f'', f' = f'' + 1 := ⟨f' - 1, by omega⟩
      cases toks with
      | nil =>
        simp only [Parser.consume_object_loop, List.head?_nil] at h ⊢
        exact h
      | cons t tl =>
        cases t with
        | RBrace => simp only [Parser.consume_object_loop, List.head?_cons] at h ⊢; exact h
        | Comma =>
          simp only [Parser.consume_object_loop, List.head?_cons, List.tail_cons] at h ⊢
          exact ihOL (by omega) h
        | StringValue s =>
          simp only [Parser.consume_object_loop, List.head?_cons] at h ⊢
          cases hpa : Parser.consume_property_assignment f (Token.StringValue s :: tl) with
          | none => rw [hpa] at h; exact absurd h (by simp)
          | some rp =>
            rw [hpa] at h
            rw [ihPA (by omega) hpa]
            cases rp with
            | ok pa parest =>
              dsimp only at h ⊢
              cases hol2 : Parser.consume_object_loop f parest with
              | none => rw [hol2] at h; exact absurd h (by simp)
              | some r2 =>
                rw [hol2] at h
                rw [ihOL (by omega) hol2]
                exact h
            | err e => exact h
            | panicked e => exact h
        | LBrace => simp only [Parser.consume_object_loop, List.head?_cons] at h ⊢; exact h
        | LBracket => simp only [Parser.consume_object_loop, List.head?_cons] at h ⊢; exact h
        | RBracket => simp only [Parser.consume_object_loop, List.head?_cons] at h ⊢; exact h
        | Colon => simp only [Parser.consume_object_loop, List.head?_cons] at h ⊢; exact h
        | NumberValue v => simp only [Parser.consume_object_loop, List.head?_cons] at h ⊢; exact h
        | BooleanValue b => simp only [Parser.consume_object_loop, List.head?_cons] at h ⊢; exact h
        | NullValue => simp only [Parser.consume_object_loop, List.head?_cons] at h ⊢; exact h
        | End => simp only [Parser.consume_object_loop, List.head?_cons] at h ⊢; exact h
    have hO : ∀ {f' : Nat} {toks r}, f + 1 ≤ f' →
        Parser.consume_object (f + 1) toks = some r →
        Parser.consume_object f' toks = some r := by
      intro f' toks r hle h
      obtain ⟨f'', rfl⟩ : ∃ f'', f' = f'' + 1 := ⟨f' - 1, by omega⟩
      simp only [Parser.consume_object] at h ⊢
      cases hol : Parser.consume_object_loop f toks.tail with
      | none => rw [hol] at h; exact absurd h (by simp)
      | some rl =>
        rw [hol] at h
        rw [ihOL (by omega) hol]
        exact h
    have hA : ∀ {f' : Nat} {toks r}, f + 1 ≤ f' →
        Parser.consume_array (f + 1) toks = some r →
        Parser.consume_array f' toks = some r := by
      intro f' toks r hle h
      obtain ⟨f'', rfl⟩ : ∃ f'', f' = f'' + 1 := ⟨f' - 1, by omega⟩
      simp only [Parser.consume_array] at h ⊢
      cases hal : Parser.consume_array_loop f toks.tail with
      | none => rw [hal] at h; exact absurd h (by simp)
      | some rl =>
        rw [hal] at h
        rw [ihAL (by omega) hal]
        exact h
    have hV : ∀ {f' : Nat} {toks r}, f + 1 ≤ f' →
        Parser.consume_value (f + 1) toks = some r →
        Parser.consume_value f' toks = some r := by
      intro f' toks r hle h
      obtain ⟨f'', rfl⟩ : ∃ f'', f' = f'' + 1 := ⟨f' - 1, by omega⟩
      cases toks with
      | nil => simp only [Parser.consume_value, List.head?_nil] at h ⊢; exact h
      | cons t tl =>
        cases t with
        | StringValue s => simp only [Parser.consume_value, List.head?_cons] at h ⊢; exact h
        | NumberValue v => simp only [Parser.consume_value, List.head?_cons] at h ⊢; exact h
        | BooleanValue b => simp only [Parser.consume_value, List.head?_cons] at h ⊢; exact h
        | NullValue => simp only [Parser.consume_value, List.head?_cons] at h ⊢; exact h
        | LBrace =>
          simp only [Parser.consume_value, List.head?_cons] at h ⊢
          exact ihO (by omega) h
        | LBracket =>
          simp only [Parser.consume_value, List.head?_cons] at h ⊢
          exact ihA (by omega) h
        | RBrace => simp only [Parser.consume_value, List.head?_cons] at h ⊢; exact h
        | RBracket => simp only [Parser.consume_value, List.head?_cons] at h ⊢; exact h
        | Colon => simp only [Parser.consume_value, List.head?_cons] at h ⊢; exact h
        | Comma => simp only [Parser.consume_value, List.head?_cons] at h ⊢; exact h
        | End => simp only [Parser.consume_value, List.head?_cons] at h ⊢; exact h
    have hAL : ∀ {f' : Nat} {toks r}, f + 1 ≤ f' →
        Parser.consume_array_loop (f + 1) toks = some r →
        Parser.consume_array_loop f' toks = some r := by
      intro f' toks r hle h
      obtain ⟨f'', rfl⟩ : ∃ f'', f' = f'' + 1 := ⟨f' - 1, by omega⟩
      cases toks with
      | nil => simp only [Parser.consume_array_loop, List.head?_nil] at h ⊢; exact h
      | cons t tl =>
        cases t with
        | RBracket => simp only [Parser.consume_array_loop, List.head?_cons] at h ⊢; exact h
        | Comma =>
          simp only [Parser.consume_array_loop, List.head?_cons, List.tail_cons] at h ⊢
          exact ihAL (by omega) h
        | StringValue s =>
          simp only [Parser.consume_array_loop, List.head?_cons] at h ⊢
          cases hv : Parser.consume_value f (Token.StringValue s :: tl) with
          | none => rw [hv] at h; exact absurd h (by simp)
          | some rv =>
            rw [hv] at h
            rw [ihV (by omega) hv]
            cases rv with
            | ok v vrest =>
              dsimp only at h ⊢
              cases hal2 : Parser.consume_array_loop f vrest with
              | none => rw [hal2] at h; exact absurd h (by simp)
              | some r2 =>
                rw [hal2] at h
                rw [ihAL (by omega) hal2]
                exact h
            | err e => exact h
            | panicked e => exact h
        | NumberValue v0 =>
          simp only [Parser.consume_array_loop, List.head?_cons] at h ⊢
          cases hv : Parser.consume_value f (Token.NumberValue v0 :: tl) with
          | none => rw [hv] at h; exact absurd h (by simp)
          | some rv =>
            rw [hv] at h
            rw [ihV (by omega) hv]
            cases rv with
            | ok v vrest =>
              dsimp only at h ⊢
              cases hal2 : Parser.consume_array_loop f vrest with
              | none => rw [hal2] at h; exact absurd h (by simp)
              | some r2 =>
                rw [hal2] at h
                rw [ihAL (by omega) hal2]
                exact h
            | err e => exact h
            | panicked e => exact h
        | BooleanValue b =>
          simp only [Parser.consume_array_loop, List.head?_cons] at h ⊢
          cases hv : Parser.consume_value f (Token.BooleanValue b :: tl) with
          | none => rw [hv] at h; exact absurd h (by simp)
          | some rv =>
            rw [hv] at h
            rw [ihV (by omega) hv]
            cases rv with
            | ok v vrest =>
              dsimp only at h ⊢
              cases hal2 : Parser.consume_array_loop f vrest with
              | none => rw [hal2] at h; exact absurd h (by simp)
              | some r2 =>
                rw [hal2] at h
                rw [ihAL (by omega) hal2]
                exact h
            | err e => exact h
            | panicked e => exact h
        | NullValue =>
          simp only [Parser.consume_array_loop, List.head?_cons] at h ⊢
          cases hv : Parser.consume_value f (Token.NullValue :: tl) with
          | none => rw [hv] at h; exact absurd h (by simp)
          | some rv =>
            rw [hv] at h
            rw [ihV (by omega) hv]
            cases rv with
            | ok v vrest =>
              dsimp only at h ⊢
              cases hal2 : Parser.consume_array_loop f vrest with
              | none => rw [hal2] at h; exact absurd h (by simp)
              | some r2 =>
                rw [hal2] at h
                rw [ihAL (by omega) hal2]
                exact h
            | err e => exact h
            | panicked e => exact h
        | LBrace =>
          simp only [Parser.consume_array_loop, List.head?_cons] at h ⊢
          cases hv : Parser.consume_value f (Token.LBrace :: tl) with
          | none => rw [hv] at h; exact absurd h (by simp)
          | some rv =>
            rw [hv] at h
            rw [ihV (by omega) hv]
            cases rv with
            | ok v vrest =>
              dsimp only at h ⊢
              cases hal2 : Parser.consume_array_loop f vrest with
              | none => rw [hal2] at h; exact absurd h (by simp)
              | some r2 =>
                rw [hal2] at h
                rw [ihAL (by omega) hal2]
                exact h
            | err e => exact h
            | panicked e => exact h
        | LBracket =>
          simp only [Parser.consume_array_loop, List.head?_cons] at h ⊢
          cases hv : Parser.consume_value f (Token.LBracket :: tl) with
          | none => rw [hv] at h; exact absurd h (by simp)
          | some rv =>
            rw [hv] at h
            rw [ihV (by omega) hv]
            cases rv with
            | ok v vrest =>
              dsimp only at h ⊢
              cases hal2 : Parser.consume_array_loop f vrest with
              | none => rw [hal2] at h; exact absurd h (by simp)
              | some r2 =>
                rw [hal2] at h
                rw [ihAL (by omega) hal2]
                exact h
            | err e => exact h
            | panicked e => exact h
        | RBrace => simp only [Parser.consume_array_loop, List.head?_cons] at h ⊢; exact h
        | Colon => simp only [Parser.consume_array_loop, List.head?_cons] at h ⊢; exact h
        | End => simp only [Parser.consume_array_loop, List.head?_cons] at h ⊢; exact h
    exact ⟨hV, hO, hA, hPA, hOL, hAL⟩


/-- With fuel at least linear in the number of tokens, no production runs
out of fuel. -/
theorem Parser.suff : ∀ f : Nat,
    (∀ toks : List Token, 3 * toks.length + 3 ≤ f → Parser.consume_value f toks ≠ none) ∧
    (∀ toks : List Token, 3 * toks.length + 2 ≤ f → Parser.consume_object f toks ≠ none) ∧
    (∀ toks : List Token, 3 * toks.length + 2 ≤ f → Parser.consume_array f toks ≠ none) ∧
    (∀ toks : List Token, 3 * toks.length + 3 ≤ f →
      Parser.consume_property_assignment f toks ≠ none) ∧
    (∀ toks : List Token, 3 * toks.length + 4 ≤ f → Parser.consume_object_loop f toks ≠ none) ∧
    (∀ toks : List Token, 3 * toks.length + 4 ≤ f → Parser.consume_array_loop f toks ≠ none) := by
  intro f
  induction f with
  | zero =>
    refine ⟨?_, ?_, ?_, ?_, ?_, ?_⟩ <;> (intro toks hb; omega)
  | succ f ih =>
    obtain ⟨ihV, ihO, ihA, ihPA, ihOL, ihAL⟩ := ih
    have hPA : ∀ toks : List Token, 3 * toks.length + 3 ≤ f + 1 →
        Parser.consume_property_assignment (f + 1) toks ≠ none := by
      intro toks hb
      cases toks with
      | nil => simp [Parser.consume_property_assignment]
      | cons t tl =>
        cases t with
        | StringValue s =>
          simp only [Parser.consume_property_assignment, List.head?_cons, List.tail_cons]
          have hd : tl.tail.length ≤ tl.length := by cases tl <;> simp
          have hv := ihV tl.tail (by simp only [List.length_cons] at hb; omega)
          cases hx : Parser.consume_value f tl.tail with
          | none => exact absurd hx hv
          | some rv => cases rv <;> simp [hx]
        | LBrace => simp [Parser.consume_property_assignment]
        | RBrace => simp [Parser.consume_property_assignment]
        | LBracket => simp [Parser.consume_property_assignment]
        | RBracket => simp [Parser.consume_property_assignment]
        | Colon => simp [Parser.consume_property_assignment]
        | Comma => simp [Parser.consume_property_assignment]
        | NumberValue v => simp [Parser.consume_property_assignment]
        | BooleanValue b => simp [Parser.consume_property_assignment]
        | NullValue => simp [Parser.consume_property_assignment]
        | End => simp [Parser.consume_property_assignment]
    have hO : ∀ toks : List Token, 3 * toks.length + 2 ≤ f + 1 →
        Parser.consume_object (f + 1) toks ≠ none := by
      intro toks hb
      simp only [Parser.consume_object]
      cases toks with
      | nil =>
        obtain ⟨g, rfl⟩ : ∃ g, f = g + 1 := ⟨f - 1, by omega⟩
        simp [Parser.consume_object_loop]
      | cons t tl =>
        have hol := ihOL tl (by simp only [List.length_cons] at hb; omega)
        simp only [List.tail_cons]
        cases hx : Parser.consume_object_loop f tl with
        | none => exact absurd hx hol
        | some rl => cases rl <;> simp [hx]
    have hA : ∀ toks : List Token, 3 * toks.length + 2 ≤ f + 1 →
        Parser.consume_array (f + 1) toks ≠ none := by
      intro toks hb
      simp only [Parser.consume_array]
      cases toks with
      | nil =>
        obtain ⟨g, rfl⟩ : ∃ g, f = g + 1 := ⟨f - 1, by omega⟩
        simp [Parser.consume_array_loop]
      | cons t tl =>
        have hal := ihAL tl (by simp only [List.length_cons] at hb; omega)
        simp only [List.tail_cons]
        cases hx : Parser.consume_array_loop f tl with
        | none => exact absurd hx hal
        | some rl => cases rl <;> simp [hx]
    have hOL : ∀ toks : List Token, 3 * toks.length + 4 ≤ f + 1 →
        Parser.consume_object_loop (f + 1) toks ≠ none := by
      intro toks hb
      cases toks with
      | nil => simp [Parser.consume_object_loop]
      | cons t tl =>
        cases t with
        | RBrace => simp [Parser.consume_object_loop]
        | Comma =>
          simp only [Parser.consume_object_loop, List.head?_cons, List.tail_cons]
          exact ihOL tl (by simp only [List.length_cons] at hb; omega)
        | StringValue s =>
          simp only [Parser.consume_object_loop, List.head?_cons]
          have hpa := ihPA (Token.StringValue s :: tl) (by omega)
          cases hx : Parser.consume_property_assignment f (Token.StringValue s :: tl) with
          | none => exact absurd hx hpa
          | some rp =>
            cases rp with
            | ok pa parest =>
              have hcons := ((Parser.consumed f).2.2.2.1) hx
              have hol := ihOL parest
                (by simp only [List.length_cons] at hb hcons; omega)
              cases hy : Parser.consume_object_loop f parest with
              | none => exact absurd hy hol
              | some r2 => cases r2 <;> simp [hy]
            | err e => simp
            | panicked e => simp
        | LBrace => simp [Parser.consume_object_loop]
        | LBracket => simp [Parser.consume_object_loop]
        | RBracket => simp [Parser.consume_object_loop]
        | Colon => simp [Parser.consume_object_loop]
        | NumberValue v => simp [Parser.consume_object_loop]
        | BooleanValue b => simp [Parser.consume_object_loop]
        | NullValue => simp [Parser.consume_object_loop]
        | End => simp [Parser.consume_object_loop]
    have hV : ∀ toks : List Token, 3 * toks.length + 3 ≤ f + 1 →
        Parser.consume_value (f + 1) toks ≠ none := by
      intro toks hb
      cases toks with
      | nil => simp [Parser.consume_value]
      | cons t tl =>
        cases t with
        | StringValue s => simp [Parser.consume_value, Parser.consume_string]
        | NumberValue v => simp [Parser.consume_value, Parser.consume_number]
        | BooleanValue b => cases b <;> simp [Parser.consume_value, Parser.consume_keyword]
        | NullValue => simp [Parser.consume_value, Parser.consume_keyword]
        | LBrace =>
          simp only [Parser.consume_value, List.head?_cons]
          exact ihO (Token.LBrace :: tl) (by simp only [List.length_cons] at hb ⊢; omega)
        | LBracket =>
          simp only [Parser.consume_value, List.head?_cons]
          exact ihA (Token.LBracket :: tl) (by simp only [List.length_cons] at hb ⊢; omega)
        | RBrace => simp [Parser.consume_value]
        | RBracket => simp [Parser.consume_value]
        | Colon => simp [Parser.consume_value]
        | Comma => simp [Parser.consume_value]
        | End => simp [Parser.consume_value]
    have hAL : ∀ toks : List Token, 3 * toks.length + 4 ≤ f + 1 →
        Parser.consume_array_loop (f + 1) toks ≠ none := by
      have harm : ∀ (t0 : Token) (tl : List Token), 3 * (t0 :: tl).length + 4 ≤ f + 1 →
          (Parser.consume_array_loop (f + 1) (t0 :: tl) =
            match Parser.consume_value f (t0 :: tl) with
            | some (.ok v vrest) =>
              match Parser.consume_array_loop f vrest with
              | some (.ok es rest') => some (.ok (v :: es) rest')
              | r => r
            | some (.err e) => some (.err e)
            | some (.panicked e) => some (.panicked e)
            | none => none) →
          Parser.consume_array_loop (f + 1) (t0 :: tl) ≠ none := by
        intro t0 tl hb heq
        rw [heq]
        have hv := ihV (t0 :: tl) (by omega)
        cases hx : Parser.consume_value f (t0 :: tl) with
        | none => exact absurd hx hv
        | some rv =>
          cases rv with
          | ok v vrest =>
            have hcons := ((Parser.consumed f).1) hx
            have hal := ihAL vrest (by simp only [List.length_cons] at hb hcons; omega)
            cases hy : Parser.consume_array_loop f vrest with
            | none => exact absurd hy hal
            | some r2 => cases r2 <;> simp [hy]
          | err e => simp
          | panicked e => simp
      intro toks hb
      cases toks with
      | nil => simp [Parser.consume_array_loop]
      | cons t tl =>
        cases t with
        | RBracket => simp [Parser.consume_array_loop]
        | Comma =>
          simp only [Parser.consume_array_loop, List.head?_cons, List.tail_cons]
          exact ihAL tl (by simp only [List.length_cons] at hb; omega)
        | StringValue s => exact harm _ _ hb (by simp [Parser.consume_array_loop])
        | NumberValue v => exact harm _ _ hb (by simp [Parser.consume_array_loop])
        | BooleanValue b => exact harm _ _ hb (by simp [Parser.consume_array_loop])
        | NullValue => exact harm _ _ hb (by simp [Parser.consume_array_loop])
        | LBrace => exact harm _ _ hb (by simp [Parser.consume_array_loop])
        | LBracket => exact harm _ _ hb (by simp [Parser.consume_array_loop])
        | RBrace => simp [Parser.consume_array_loop]
        | Colon => simp [Parser.consume_array_loop]
        | End => simp [Parser.consume_array_loop]
    exact ⟨hV, hO, hA, hPA, hOL, hAL⟩


/-! ## Parse entry point lemmas -/

/-- A successful object production determines `parse` (the trailing
tokens are ignored). -/
theorem Parser.parse_object_ok {toks rest : List Token} {f : Nat} {n : Node}
    (hh : toks.head? = some Token.LBrace)
    (h : Parser.consume_object f toks = some (.ok n rest)) : Parser.parse toks = .ok n := by
  unfold Parser.parse
  rw [hh]
  rcases le_or_lt f (Parser.parseFuel toks) with hle | hlt
  · rw [(Parser.mono f).2.1 hle h]
  · have hs := (Parser.suff (Parser.parseFuel toks)).2.1 toks
      (by unfold Parser.parseFuel; omega)
    cases hx : Parser.consume_object (Parser.parseFuel toks) toks with
    | none => exact absurd hx hs
    | some r =>
      have h2 := (Parser.mono (Parser.parseFuel toks)).2.1 (le_of_lt hlt) hx
      rw [h2] at h
      cases h
      rfl

/-- A successful array production determines `parse`. -/
theorem Parser.parse_array_ok {toks rest : List Token} {f : Nat} {n : Node}
    (hh : toks.head? = some Token.LBracket)
    (h : Parser.consume_array f toks = some (.ok n rest)) : Parser.parse toks = .ok n := by
  unfold Parser.parse
  rw [hh]
  rcases le_or_lt f (Parser.parseFuel toks) with hle | hlt
  · rw [(Parser.mono f).2.2.1 hle h]
  · have hs := (Parser.suff (Parser.parseFuel toks)).2.2.1 toks
      (by unfold Parser.parseFuel; omega)
    cases hx : Parser.consume_array (Parser.parseFuel toks) toks with
    | none => exact absurd hx hs
    | some r =>
      have h2 := (Parser.mono (Parser.parseFuel toks)).2.2.1 (le_of_lt hlt) hx
      rw [h2] at h
      cases h
      rfl

/-- When the first token is neither `LBrace` nor `LBracket`, `parse`
panics at once with the root-validation message. -/
theorem Parser.parse_other {toks : List Token}
    (hh : ∀ t, toks.head? = some t → t ≠ Token.LBrace ∧ t ≠ Token.LBracket) :
    Parser.parse toks = .panicked "Unexpected the first token of input" := by
  unfold Parser.parse
  cases hx : toks.head? with
  | none => rfl
  | some t =>
    obtain ⟨h1, h2⟩ := hh t hx
    cases t <;> first | rfl | exact absurd rfl h1 | exact absurd rfl h2

/-- `Parser.parse` never runs out of fuel and never returns a bare `Err`:
its outcome is a tree or a panic. -/
theorem Parser.parse_total (toks : List Token) :
    (∃ n, Parser.parse toks = .ok n) ∨ (∃ m, Parser.parse toks = .panicked m) := by
  unfold Parser.parse
  cases hx : toks.head? with
  | none => exact Or.inr ⟨_, rfl⟩
  | some t =>
    cases t with
    | LBrace =>
      have hs := (Parser.suff (Parser.parseFuel toks)).2.1 toks
        (by unfold Parser.parseFuel; omega)
      cases hy : Parser.consume_object (Parser.parseFuel toks) toks with
      | none => exact absurd hy hs
      | some r => cases r with
        | ok n rest => exact Or.inl ⟨n, rfl⟩
        | err e => exact Or.inr ⟨e, rfl⟩
        | panicked e => exact Or.inr ⟨e, rfl⟩
    | LBracket =>
      have hs := (Parser.suff (Parser.parseFuel toks)).2.2.1 toks
        (by unfold Parser.parseFuel; omega)
      cases hy : Parser.consume_array (Parser.parseFuel toks) toks with
      | none => exact absurd hy hs
      | some r => cases r with
        | ok n rest => exact Or.inl ⟨n, rfl⟩
        | err e => exact Or.inr ⟨e, rfl⟩
        | panicked e => exact Or.inr ⟨e, rfl⟩
    | RBrace => exact Or.inr ⟨_, rfl⟩
    | RBracket => exact Or.inr ⟨_, rfl⟩
    | Colon => exact Or.inr ⟨_, rfl⟩
    | Comma => exact Or.inr ⟨_, rfl⟩
    | StringValue s => exact Or.inr ⟨_, rfl⟩
    | NumberValue v => exact Or.inr ⟨_, rfl⟩
    | BooleanValue b => exact Or.inr ⟨_, rfl⟩
    | NullValue => exact Or.inr ⟨_, rfl⟩
    | End => exact Or.inr ⟨_, rfl⟩

/-! ## Well-formed trees

`WFValue` describes the finite-number trees the parser can build: string
payloads and keys contain no quote (the lexer cuts at the first quote),
numbers are finite values in display normal form, object members are
`PropertyAssignment` nodes whose first child is an `Identifier` key.
The trees holding an overflowed (infinite) number satisfy only the
lenient `WFxValue` below; their formatted text does not re-lex. -/

mutual

inductive WFValue : Node → Prop where
  | str {s : List Char} (h : '"' ∉ s) : WFValue (Node.mk (.StringLiteral s) [])
  | num {n : FNum} (h : n.WF) : WFValue (Node.mk (.NumberLiteral n) [])
  | true_kw : WFValue (Node.mk .TrueKeyword [])
  | false_kw : WFValue (Node.mk .FalseKeyword [])
  | null_kw : WFValue (Node.mk .NullKeyword [])
  | obj {ms : List Node} (h : WFMembers ms) : WFValue (Node.mk .ObjectLiteralExpression ms)
  | arr {es : List Node} (h : WFElems es) : WFValue (Node.mk .ArrayLiteralExpression es)

inductive WFMembers : List Node → Prop where
  | nil : WFMembers []
  | cons {k : List Char} {v : Node} {ms : List Node} (hk : '"' ∉ k) (hv : WFValue v)
      (hms : WFMembers ms) :
      WFMembers (Node.mk .PropertyAssignment [Node.mk (.Identifier k) [], v] :: ms)

inductive WFElems : List Node → Prop where
  | nil : WFElems []
  | cons {e : Node} {es : List Node} (he : WFValue e) (hes : WFElems es) : WFElems (e :: es)

end

/-! The lenient counterpart: what the parser guarantees on any lexed
stream.  Numbers may additionally be infinity (an overflowed literal);
everything else is as in the strict predicates.  A tree whose numbers
are all finite upgrades to the strict `WFValue` (`WFx_finite`). -/

mutual

inductive WFxValue : Node → Prop where
  | str {s : List Char} (h : '"' ∉ s) : WFxValue (Node.mk (.StringLiteral s) [])
  | num {n : FNum} (h : n.WF ∨ n = .inf) : WFxValue (Node.mk (.NumberLiteral n) [])
  | true_kw : WFxValue (Node.mk .TrueKeyword [])
  | false_kw : WFxValue (Node.mk .FalseKeyword [])
  | null_kw : WFxValue (Node.mk .NullKeyword [])
  | obj {ms : List Node} (h : WFxMembers ms) : WFxValue (Node.mk .ObjectLiteralExpression ms)
  | arr {es : List Node} (h : WFxElems es) : WFxValue (Node.mk .ArrayLiteralExpression es)

inductive WFxMembers : List Node → Prop where
  | nil : WFxMembers []
  | cons {k : List Char} {v : Node} {ms : List Node} (hk : '"' ∉ k) (hv : WFxValue v)
      (hms : WFxMembers ms) :
      WFxMembers (Node.mk .PropertyAssignment [Node.mk (.Identifier k) [], v] :: ms)

inductive WFxElems : List Node → Prop where
  | nil : WFxElems []
  | cons {e : Node} {es : List Node} (he : WFxValue e) (hes : WFxElems es) : WFxElems (e :: es)

end

mutual

/-- Every numeric literal of the tree is finite (its payload is not the
overflowed value `inf`). -/
def Node.finiteNums : Node → Bool
  | .mk kind children =>
    (match kind with
     | .NumberLiteral v => v.isFinite
     | _ => true) && Node.listFiniteNums children

/-- `Node.finiteNums` over a child list. -/
def Node.listFiniteNums : List Node → Bool
  | [] => true
  | c :: cs => Node.finiteNums c && Node.listFiniteNums cs

end

/-- A lenient tree whose numbers are all finite is strictly well-formed. -/
theorem WFx_finite : ∀ N : Nat,
    (∀ t, WFxValue t → Node.finiteNums t = true → sizeOf t ≤ N → WFValue t) ∧
    (∀ ms, WFxMembers ms → Node.listFiniteNums ms = true → sizeOf ms ≤ N → WFMembers ms) ∧
    (∀ es, WFxElems es → Node.listFiniteNums es = true → sizeOf es ≤ N → WFElems es) := by
  intro N
  induction N with
  | zero =>
    refine ⟨?_, ?_, ?_⟩
    · intro t _ _ hs
      exfalso
      cases t with
      | mk kind children =>
        simp only [Node.mk.sizeOf_spec] at hs
        omega
    · intro ms hwf _ hs
      cases hwf with
      | nil => exact WFMembers.nil
      | cons hk hv hms =>
        exfalso
        simp only [List.cons.sizeOf_spec] at hs
        omega
    · intro es hwf _ hs
      cases hwf with
      | nil => exact WFElems.nil
      | cons he hes =>
        exfalso
        simp only [List.cons.sizeOf_spec] at hs
        omega
  | succ N ih =>
    obtain ⟨ihV, ihM, ihE⟩ := ih
    refine ⟨?_, ?_, ?_⟩
    · intro t hwf hfin hs
      cases hwf with
      | str h => exact WFValue.str h
      | num h =>
        rename_i v
        cases h with
        | inl hWF => exact WFValue.num hWF
        | inr hinf =>
          exfalso
          subst hinf
          simp [Node.finiteNums, FNum.isFinite] at hfin
      | true_kw => exact WFValue.true_kw
      | false_kw => exact WFValue.false_kw
      | null_kw => exact WFValue.null_kw
      | obj h =>
        rename_i ms
        have hs2 : sizeOf ms ≤ N := by
          simp only [Node.mk.sizeOf_spec] at hs
          omega
        have hfin2 : Node.listFiniteNums ms = true := by
          simp only [Node.finiteNums, Bool.and_eq_true] at hfin
          exact hfin.2
        exact WFValue.obj (ihM ms h hfin2 hs2)
      | arr h =>
        rename_i es
        have hs2 : sizeOf es ≤ N := by
          simp only [Node.mk.sizeOf_spec] at hs
          omega
        have hfin2 : Node.listFiniteNums es = true := by
          simp only [Node.finiteNums, Bool.and_eq_true] at hfin
          exact hfin.2
        exact WFValue.arr (ihE es h hfin2 hs2)
    · intro ms hwf hfin hs
      cases hwf with
      | nil => exact WFMembers.nil
      | cons hk hv hms =>
        rename_i k v ms'
        simp only [Node.listFiniteNums, Node.finiteNums, Bool.and_eq_true] at hfin
        have hsv : sizeOf v ≤ N := by
          simp only [List.cons.sizeOf_spec, Node.mk.sizeOf_spec] at hs
          omega
        have hsms : sizeOf ms' ≤ N := by
          simp only [List.cons.sizeOf_spec] at hs
          omega
        exact WFMembers.cons hk (ihV v hv hfin.1.2.2.1 hsv) (ihM ms' hms hfin.2 hsms)
    · intro es hwf hfin hs
      cases hwf with
      | nil => exact WFElems.nil
      | cons he hes =>
        rename_i e es'
        simp only [Node.listFiniteNums, Bool.and_eq_true] at hfin
        have hse : sizeOf e ≤ N := by
          simp only [List.cons.sizeOf_spec] at hs
          omega
        have hses : sizeOf es' ≤ N := by
          simp only [List.cons.sizeOf_spec] at hs
          omega
        exact WFElems.cons (ihV e he hfin.1 hse) (ihE es' hes hfin.2 hses)

theorem tokens_WF_tail {toks : List Token} (h : ∀ t ∈ toks, t.WF) :
    ∀ t ∈ toks.tail, t.WF :=
  fun t ht => h t ((List.tail_sublist toks).subset ht)


/-- The shape of every node `consume_property_assignment` returns. -/
def PAxShape (n : Node) : Prop :=
  ∃ k v, n = Node.mk .PropertyAssignment [Node.mk (.Identifier k) [], v] ∧ '"' ∉ k ∧ WFxValue v

/-- On a stream of well-formed tokens, every successful production
returns a well-formed tree and leaves a stream of well-formed tokens. -/
theorem Parser.output_WF : ∀ f : Nat,
    (∀ {toks n rest}, (∀ t ∈ toks, t.WF) → Parser.consume_value f toks = some (.ok n rest) →
      WFxValue n ∧ ∀ t ∈ rest, t.WF) ∧
    (∀ {toks n rest}, (∀ t ∈ toks, t.WF) → Parser.consume_object f toks = some (.ok n rest) →
      WFxValue n ∧ ∀ t ∈ rest, t.WF) ∧
    (∀ {toks n rest}, (∀ t ∈ toks, t.WF) → Parser.consume_array f toks = some (.ok n rest) →
      WFxValue n ∧ ∀ t ∈ rest, t.WF) ∧
    (∀ {toks n rest}, (∀ t ∈ toks, t.WF) →
      Parser.consume_property_assignment f toks = some (.ok n rest) →
      PAxShape n ∧ ∀ t ∈ rest, t.WF) ∧
    (∀ {toks ns rest}, (∀ t ∈ toks, t.WF) →
      Parser.consume_object_loop f toks = some (.ok ns rest) →
      WFxMembers ns ∧ ∀ t ∈ rest, t.WF) ∧
    (∀ {toks ns rest}, (∀ t ∈ toks, t.WF) →
      Parser.consume_array_loop f toks = some (.ok ns rest) →
      WFxElems ns ∧ ∀ t ∈ rest, t.WF) := by
  intro f
  induction f with
  | zero =>
    refine ⟨?_, ?_, ?_, ?_, ?_, ?_⟩ <;>
      (intro toks a b hwf h; exact absurd h (by simp [Parser.consume_value,
        Parser.consume_object, Parser.consume_array, Parser.consume_property_assignment,
        Parser.consume_object_loop, Parser.consume_array_loop]))
  | succ f ih =>
    obtain ⟨ihV, ihO, ihA, ihPA, ihOL, ihAL⟩ := ih
    have hPA : ∀ {toks : List Token} {n rest}, (∀ t ∈ toks, t.WF) →
        Parser.consume_property_assignment (f + 1) toks = some (.ok n rest) →
        PAxShape n ∧ ∀ t ∈ rest, t.WF := by
      intro toks n rest hwf h
      cases toks with
      | nil => simp [Parser.consume_property_assignment] at h
      | cons t tl =>
        cases t with
        | StringValue s =>
          simp only [Parser.consume_property_assignment, List.head?_cons, List.tail_cons] at h
          cases hv : Parser.consume_value f tl.tail with
          | none => rw [hv] at h; exact absurd h (by simp)
          | some rv =>
            rw [hv] at h
            cases rv with
            | ok v vrest =>
              simp only [Option.some.injEq, PRes.ok.injEq] at h
              have hwf2 : ∀ t ∈ tl.tail, Token.WF t :=
                tokens_WF_tail (tokens_WF_tail hwf)
              have hV := ihV hwf2 hv
              have hks : '"' ∉ s := hwf (Token.StringValue s) (by simp)
              refine ⟨?_, h.2 ▸ hV.2⟩
              rw [← h.1]
              exact ⟨s, v, rfl, hks, hV.1⟩
            | err e => simp at h
            | panicked e => simp at h
        | LBrace => simp [Parser.consume_property_assignment] at h
        | RBrace => simp [Parser.consume_property_assignment] at h
        | LBracket => simp [Parser.consume_property_assignment] at h
        | RBracket => simp [Parser.consume_property_assignment] at h
        | Colon => simp [Parser.consume_property_assignment] at h
        | Comma => simp [Parser.consume_property_assignment] at h
        | NumberValue v => simp [Parser.consume_property_assignment] at h
        | BooleanValue b => simp [Parser.consume_property_assignment] at h
        | NullValue => simp [Parser.consume_property_assignment] at h
        | End => simp [Parser.consume_property_assignment] at h
    have hOL : ∀ {toks : List Token} {ns rest}, (∀ t ∈ toks, t.WF) →
        Parser.consume_object_loop (f + 1) toks = some (.ok ns rest) →
        WFxMembers ns ∧ ∀ t ∈ rest, t.WF := by
      intro toks ns rest hwf h
      cases toks with
      | nil => simp [Parser.consume_object_loop] at h
      | cons t tl =>
        cases t with
        | RBrace =>
          simp only [Parser.consume_object_loop, List.head?_cons, List.tail_cons,
            Option.some.injEq, PListRes.ok.injEq] at h
          obtain ⟨h1, h2⟩ := h
          subst h2
          exact ⟨h1 ▸ WFxMembers.nil, tokens_WF_tail hwf⟩
        | Comma =>
          simp only [Parser.consume_object_loop, List.head?_cons, List.tail_cons] at h
          exact ihOL (tokens_WF_tail hwf) h
        | StringValue s =>
          simp only [Parser.consume_object_loop, List.head?_cons] at h
          cases hpa : Parser.consume_property_assignment f (Token.StringValue s :: tl) with
          | none => rw [hpa] at h; exact absurd h (by simp)
          | some rp =>
            rw [hpa] at h
            cases rp with
            | ok pa parest =>
              dsimp only at h
              cases hol2 : Parser.consume_object_loop f parest with
              | none => rw [hol2] at h; exact absurd h (by simp)
              | some r2 =>
                rw [hol2] at h
                cases r2 with
                | ok pas rest2 =>
                  simp only [Option.some.injEq, PListRes.ok.injEq] at h
                  have hP := ihPA hwf hpa
                  have hL := ihOL hP.2 hol2
                  obtain ⟨k, v, rfl, hk, hv⟩ := hP.1
                  refine ⟨?_, h.2 ▸ hL.2⟩
                  rw [← h.1]
                  exact WFxMembers.cons hk hv hL.1
                | err e => simp at h
                | panicked e => simp at h
            | err e => simp at h
            | panicked e => simp at h
        | LBrace => simp [Parser.consume_object_loop] at h
        | LBracket => simp [Parser.consume_object_loop] at h
        | RBracket => simp [Parser.consume_object_loop] at h
        | Colon => simp [Parser.consume_object_loop] at h
        | NumberValue v => simp [Parser.consume_object_loop] at h
        | BooleanValue b => simp [Parser.consume_object_loop] at h
        | NullValue => simp [Parser.consume_object_loop] at h
        | End => simp [Parser.consume_object_loop] at h
    have hO : ∀ {toks : List Token} {n rest}, (∀ t ∈ toks, t.WF) →
        Parser.consume_object (f + 1) toks = some (.ok n rest) →
        WFxValue n ∧ ∀ t ∈ rest, t.WF := by
      intro toks n rest hwf h
      simp only [Parser.consume_object] at h
      cases hol : Parser.consume_object_loop f toks.tail with
      | none => rw [hol] at h; exact absurd h (by simp)
      | some rl =>
        rw [hol] at h
        cases rl with
        | ok pas lrest =>
          simp only [Option.some.injEq, PRes.ok.injEq] at h
          have hL := ihOL (tokens_WF_tail hwf) hol
          exact ⟨h.1 ▸ WFxValue.obj hL.1, h.2 ▸ hL.2⟩
        | err e => simp at h
        | panicked e => simp at h
    have hAL : ∀ {toks : List Token} {ns rest}, (∀ t ∈ toks, t.WF) →
        Parser.consume_array_loop (f + 1) toks = some (.ok ns rest) →
        WFxElems ns ∧ ∀ t ∈ rest, t.WF := by
      have harm : ∀ {t0 : Token} {tl : List Token} {ns rest}, (∀ t ∈ t0 :: tl, t.WF) →
          Parser.consume_array_loop (f + 1) (t0 :: tl) = some (.ok ns rest) →
          (Parser.consume_array_loop (f + 1) (t0 :: tl) =
            match Parser.consume_value f (t0 :: tl) with
            | some (.ok v vrest) =>
              match Parser.consume_array_loop f vrest with
              | some (.ok es rest') => some (.ok (v :: es) rest')
              | r => r
            | some (.err e) => some (.err e)
            | some (.panicked e) => some (.panicked e)
            | none => none) →
          WFxElems ns ∧ ∀ t ∈ rest, t.WF := by
        intro t0 tl ns rest hwf h heq
        rw [heq] at h
        cases hv : Parser.consume_value f (t0 :: tl) with
        | none => rw [hv] at h; exact absurd h (by simp)
        | some rv =>
          rw [hv] at h
          cases rv with
          | ok v vrest =>
            dsimp only at h
            cases hal2 : Parser.consume_array_loop f vrest with
            | none => rw [hal2] at h; exact absurd h (by simp)
            | some r2 =>
              rw [hal2] at h
              cases r2 with
              | ok es rest2 =>
                simp only [Option.some.injEq, PListRes.ok.injEq] at h
                have hVr := ihV hwf hv
                have hL := ihAL hVr.2 hal2
                refine ⟨?_, h.2 ▸ hL.2⟩
                rw [← h.1]
                exact WFxElems.cons hVr.1 hL.1
              | err e => simp at h
              | panicked e => simp at h
          | err e => simp at h
          | panicked e => simp at h
      intro toks ns rest hwf h
      cases toks with
      | nil => simp [Parser.consume_array_loop] at h
      | cons t tl =>
        cases t with
        | RBracket =>
          simp only [Parser.consume_array_loop, List.head?_cons, List.tail_cons,
            Option.some.injEq, PListRes.ok.injEq] at h
          obtain ⟨h1, h2⟩ := h
          subst h2
          exact ⟨h1 ▸ WFxElems.nil, tokens_WF_tail hwf⟩
        | Comma =>
          simp only [Parser.consume_array_loop, List.head?_cons, List.tail_cons] at h
          exact ihAL (tokens_WF_tail hwf) h
        | StringValue s => exact harm hwf h (by simp [Parser.consume_array_loop])
        | NumberValue v => exact harm hwf h (by simp [Parser.consume_array_loop])
        | BooleanValue b => exact harm hwf h (by simp [Parser.consume_array_loop])
        | NullValue => exact harm hwf h (by simp [Parser.consume_array_loop])
        | LBrace => exact harm hwf h (by simp [Parser.consume_array_loop])
        | LBracket => exact harm hwf h (by simp [Parser.consume_array_loop])
        | RBrace => simp [Parser.consume_array_loop] at h
        | Colon => simp [Parser.consume_array_loop] at h
        | End => simp [Parser.consume_array_loop] at h
    have hA : ∀ {toks : List Token} {n rest}, (∀ t ∈ toks, t.WF) →
        Parser.consume_array (f + 1) toks = some (.ok n rest) →
        WFxValue n ∧ ∀ t ∈ rest, t.WF := by
      intro toks n rest hwf h
      simp only [Parser.consume_array] at h
      cases hal : Parser.consume_array_loop f toks.tail with
      | none => rw [hal] at h; exact absurd h (by simp)
      | some rl =>
        rw [hal] at h
        cases rl with
        | ok es lrest =>
          simp only [Option.some.injEq, PRes.ok.injEq] at h
          have hL := ihAL (tokens_WF_tail hwf) hal
          exact ⟨h.1 ▸ WFxValue.arr hL.1, h.2 ▸ hL.2⟩
        | err e => simp at h
        | panicked e => simp at h
    have hV : ∀ {toks : List Token} {n rest}, (∀ t ∈ toks, t.WF) →
        Parser.consume_value (f + 1) toks = some (.ok n rest) →
        WFxValue n ∧ ∀ t ∈ rest, t.WF := by
      intro toks n rest hwf h
      cases toks with
      | nil => simp [Parser.consume_value] at h
      | cons t tl =>
        cases t with
        | StringValue s =>
          simp only [Parser.consume_value, List.head?_cons, Option.some.injEq,
            Parser.consume_string, PRes.ok.injEq] at h
          have hks : '"' ∉ s := hwf (Token.StringValue s) (by simp)
          exact ⟨h.1 ▸ WFxValue.str hks, h.2 ▸ tokens_WF_tail hwf⟩
        | NumberValue v =>
          simp only [Parser.consume_value, List.head?_cons, Option.some.injEq,
            Parser.consume_number, PRes.ok.injEq] at h
          have hkn : v.WF ∨ v = .inf := hwf (Token.NumberValue v) (by simp)
          exact ⟨h.1 ▸ WFxValue.num hkn, h.2 ▸ tokens_WF_tail hwf⟩
        | BooleanValue b =>
          cases b <;>
            (simp only [Parser.consume_value, List.head?_cons, Option.some.injEq,
              Parser.consume_keyword, PRes.ok.injEq] at h;
             first
              | exact ⟨h.1 ▸ WFxValue.true_kw, h.2 ▸ tokens_WF_tail hwf⟩
              | exact ⟨h.1 ▸ WFxValue.false_kw, h.2 ▸ tokens_WF_tail hwf⟩)
        | NullValue =>
          simp only [Parser.consume_value, List.head?_cons, Option.some.injEq,
            Parser.consume_keyword, PRes.ok.injEq] at h
          exact ⟨h.1 ▸ WFxValue.null_kw, h.2 ▸ tokens_WF_tail hwf⟩
        | LBrace =>
          simp only [Parser.consume_value, List.head?_cons] at h
          exact ihO hwf h
        | LBracket =>
          simp only [Parser.consume_value, List.head?_cons] at h
          exact ihA hwf h
        | RBrace => simp [Parser.consume_value] at h
        | RBracket => simp [Parser.consume_value] at h
        | Colon => simp [Parser.consume_value] at h
        | Comma => simp [Parser.consume_value] at h
        | End => simp [Parser.consume_value] at h
    exact ⟨hV, hO, hA, hPA, hOL, hAL⟩


/-! ## Canonical token sequence of a tree

`valueToks t` is the token sequence the formatter's output for `t`
lexes to; it mirrors the tree walk of `Formatter.format`. -/

mutual

def valueToks : Node → List Token
  | .mk kind children =>
    match kind with
    | .StringLiteral s => [.StringValue s]
    | .NumberLiteral n => [.NumberValue n]
    | .TrueKeyword => [.BooleanValue true]
    | .FalseKeyword => [.BooleanValue false]
    | .NullKeyword => [.NullValue]
    | .Identifier s => [.StringValue s]
    | .ObjectLiteralExpression => .LBrace :: listToks children ++ [.RBrace]
    | .ArrayLiteralExpression => .LBracket :: listToks children ++ [.RBracket]
    | .PropertyAssignment =>
      match children with
      | k :: v :: _ => valueToks k ++ .Colon :: valueToks v
      | _ => []
    | _ => []

def listToks : List Node → List Token
  | [] => []
  | [x] => valueToks x
  | x :: xs => valueToks x ++ .Comma :: listToks xs

end

/-- A safe separator suffix: what follows a formatted value inside the
formatter's output (nothing, a comma, or a newline). -/
def sepSafe (rest : List Char) : Prop :=
  rest = [] ∨ rest.head? = some ',' ∨ rest.head? = some '\n'

/-! ## Character-class facts -/

theorem digit_not_ws {c : Char} (h : c.isDigit) : c.isWhitespace = false := by
  by_contra hw
  simp only [Bool.not_eq_false] at hw
  have hw' : ((c = ' ' ∨ c = '\t') ∨ c = '\x0d') ∨ c = '\n' := by
    simpa [Char.isWhitespace] using hw
  rcases hw' with ((rfl | rfl) | rfl) | rfl <;> exact absurd h (by decide)

theorem digit_not_punct {c : Char} (h : c.isDigit) :
    ¬(c = '{' ∨ c = '}' ∨ c = '[' ∨ c = ']' ∨ c = ':' ∨ c = ',') := by
  intro hp
  rcases hp with rfl | rfl | rfl | rfl | rfl | rfl <;> exact absurd h (by decide)

theorem digit_ne_quote {c : Char} (h : c.isDigit) : ¬(c = '"') := by
  intro hq
  subst hq
  exact absurd h (by decide)

theorem F64.toChars_shape {n : F64} (h : n.WF) :
    ∃ d ds, n.toChars = d :: ds ∧ d.isDigit ∧ (d :: ds).all isF64Char := by
  obtain ⟨i, f⟩ := n
  obtain ⟨hi, hf, hid, hfd, hne⟩ := h
  simp only at hi hf hid hfd hne
  obtain ⟨d, i', rfl⟩ : ∃ d i', i = d :: i' := by
    cases i with
    | nil => exact absurd rfl hne
    | cons d i' => exact ⟨d, i', rfl⟩
  have hd : d.isDigit := by
    have := List.all_eq_true.mp hid d (by simp)
    exact this
  refine ⟨d, i' ++ (if f.isEmpty then [] else '.' :: f), by simp [F64.toChars], hd, ?_⟩
  simp only [List.all_cons, List.all_append, Bool.and_eq_true]
  refine ⟨by simp [isF64Char, hd], ?_, ?_⟩
  · simp only [List.all_eq_true]
    intro x hx
    have := List.all_eq_true.mp hid x (by simp [hx])
    simp [isF64Char, this]
  · cases hfe : f.isEmpty with
    | true => rfl
    | false =>
      simp only [Bool.false_eq_true, if_false, List.all_cons, Bool.and_eq_true]
      refine ⟨by simp [isF64Char], ?_⟩
      simp only [List.all_eq_true]
      intro x hx
      have := List.all_eq_true.mp hfd x hx
      simp [isF64Char, this]

/-- Shape of a displayed well-formed number: a digit first, digit-and-dot
characters throughout. -/
theorem FNum.display_shape {v : FNum} (h : v.WF) :
    ∃ d ds, v.toChars = d :: ds ∧ d.isDigit ∧ (d :: ds).all isF64Char := by
  cases v with
  | inf => exact absurd h (by simp [FNum.WF])
  | finite n => exact F64.toChars_shape h.1

theorem sepSafe_not_f64 {rest : List Char} (h : sepSafe rest) :
    ∀ c, rest.head? = some c → isF64Char c = false := by
  intro c hc
  rcases h with rfl | h | h
  · simp at hc
  · rw [h] at hc; cases hc; decide
  · rw [h] at hc; cases hc; decide

theorem sepSafe_not_alphanum {rest : List Char} (h : sepSafe rest) :
    ∀ c, rest.head? = some c → c.isAlphanum = false := by
  intro c hc
  rcases h with rfl | h | h
  · simp at hc
  · rw [h] at hc; cases hc; decide
  · rw [h] at hc; cases hc; decide

theorem indent_string_ws (opts : FormatOptions) (ind : Nat) :
    ∀ c ∈ Formatter.indent_string opts ind, c.isWhitespace := by
  intro c hc
  unfold Formatter.indent_string at hc
  simp only [List.mem_flatten, List.mem_replicate] at hc
  obtain ⟨l, ⟨hn, hl⟩, hcl⟩ := hc
  split at hl
  · subst hl
    simp only [List.mem_singleton] at hcl
    subst hcl
    decide
  · subst hl
    have := List.eq_of_mem_replicate hcl
    subst this
    decide

/-! ## Single-token lexing steps on formatted chunks -/

theorem Lexer.next_token_at_eq {cs : List Char} :
    Lexer.next_token cs = Lexer.next_token_at (cs.dropWhile Char.isWhitespace) := rfl

theorem Lexer.next_token_ws {ws cs : List Char} (h : ∀ c ∈ ws, c.isWhitespace) :
    Lexer.next_token (ws ++ cs) = Lexer.next_token cs := by
  unfold Lexer.next_token
  rw [List.dropWhile_append_of_pos h]

theorem Lexer.tokenize_ws {ws cs : List Char} (h : ∀ c ∈ ws, c.isWhitespace) :
    Lexer.tokenize (ws ++ cs) = Lexer.tokenize cs := by
  have hnt : Lexer.next_token (ws ++ cs) = Lexer.next_token cs := Lexer.next_token_ws h
  cases hx : Lexer.next_token cs with
  | error e =>
    rw [Lexer.tokenize_error (hnt.trans hx), Lexer.tokenize_error hx]
  | ok tc =>
    obtain ⟨t, cs'⟩ := tc
    by_cases ht : t = Token.End
    · subst ht
      rw [Lexer.tokenize_end (hnt.trans hx), Lexer.tokenize_end hx]
    · rw [Lexer.tokenize_cons (hnt.trans hx) ht, Lexer.tokenize_cons hx ht]

theorem Lexer.tokenize_step {chunk r : List Char} {tok : Token} {ts : List Token}
    (h1 : Lexer.next_token (chunk ++ r) = .ok (tok, r)) (ht : tok ≠ Token.End)
    (h2 : Lexer.tokenize r = .ok ts) :
    Lexer.tokenize (chunk ++ r) = .ok (tok :: ts) := by
  rw [Lexer.tokenize_cons h1 ht, h2]

theorem Lexer.consume_char_cons {c : Char} {rest : List Char} {tk : Token}
    (hc : CHAR_TOKENS c = some tk) :
    Lexer.consume_char (c :: rest) = .ok (tk, rest) := by
  unfold Lexer.consume_char
  dsimp only
  rw [hc]

/-- Lexing at a punctuation character. -/
theorem Lexer.next_token_punct {c : Char} {tk : Token} {rest : List Char}
    (hc : CHAR_TOKENS c = some tk) (hws : c.isWhitespace = false) :
    Lexer.next_token (c :: rest) = .ok (tk, rest) := by
  have hp : c = '{' ∨ c = '}' ∨ c = '[' ∨ c = ']' ∨ c = ':' ∨ c = ',' := by
    unfold CHAR_TOKENS at hc
    split_ifs at hc <;> simp_all
  rw [Lexer.next_token_at_eq, List.dropWhile_cons_of_neg (by simp [hws])]
  unfold Lexer.next_token_at
  simp only [List.head?_cons]
  rw [if_pos hp]
  exact Lexer.consume_char_cons hc

/-- Lexing at an opening quote: the string payload is recovered
verbatim. -/
theorem Lexer.next_token_string {s rest : List Char} (hs : '"' ∉ s) :
    Lexer.next_token ('"' :: s ++ '"' :: rest) = .ok (.StringValue s, rest) := by
  have hnq : ∀ c ∈ s, (fun x => decide (x ≠ '"')) c = true := by
    intro c hc
    simp only [decide_eq_true_eq]
    intro hq
    exact hs (hq ▸ hc)
  rw [show ('"' :: s ++ '"' :: rest) = '"' :: (s ++ '"' :: rest) from by simp]
  rw [Lexer.next_token_at_eq, List.dropWhile_cons_of_neg (by decide)]
  unfold Lexer.next_token_at
  simp only [List.head?_cons]
  rw [if_neg (by decide)]
  show Lexer.consume_string ('"' :: (s ++ '"' :: rest)) = Except.ok (Token.StringValue s, rest)
  unfold Lexer.consume_string
  rw [if_pos (by simp)]
  simp only [List.tail_cons]
  unfold Lexer.consume_string_rest
  rw [List.dropWhile_append_of_pos hnq, List.takeWhile_append_of_pos hnq]
  simp [List.dropWhile, List.takeWhile]

/-- Lexing at the first digit of a displayed number: the value is
recovered by the display/parse round trip. -/
theorem Lexer.next_token_number {n : FNum} {rest : List Char} (hn : n.WF)
    (hrest : ∀ c, rest.head? = some c → isF64Char c = false) :
    Lexer.next_token (n.toChars ++ rest) = .ok (.NumberValue n, rest) := by
  obtain ⟨d, ds, htc, hd, hall⟩ := FNum.display_shape hn
  have hallP : ∀ c ∈ (d :: ds), isF64Char c = true := List.all_eq_true.mp hall
  have htake : ((d :: ds) ++ rest).takeWhile isF64Char = d :: ds := by
    rw [List.takeWhile_append_of_pos hallP]
    cases rest with
    | nil => simp
    | cons r0 rs =>
      rw [List.takeWhile_cons_of_neg (by simp [hrest r0 rfl])]
      simp
  have hdrop : ((d :: ds) ++ rest).dropWhile isF64Char = rest := by
    rw [List.dropWhile_append_of_pos hallP]
    cases rest with
    | nil => simp
    | cons r0 rs => rw [List.dropWhile_cons_of_neg (by simp [hrest r0 rfl])]
  rw [htc, show ((d :: ds) ++ rest) = d :: (ds ++ rest) from rfl, Lexer.next_token_at_eq,
    List.dropWhile_cons_of_neg (by simp [digit_not_ws hd])]
  unfold Lexer.next_token_at
  simp only [List.head?_cons]
  rw [if_neg (digit_not_punct hd), if_neg (digit_ne_quote hd), if_pos hd]
  unfold Lexer.consume_number
  rw [show (d :: (ds ++ rest)) = ((d :: ds) ++ rest) from rfl, htake, hdrop]
  rw [← htc, parseF64_toChars_roundtrip hn]


/-- Lexing at the start of the `true` keyword. -/
theorem Lexer.next_token_true {rest : List Char}
    (hrest : ∀ c, rest.head? = some c → c.isAlphanum = false) :
    Lexer.next_token ("true".toList ++ rest) = .ok (.BooleanValue true, rest) := by
  have hkw : ∀ c ∈ "true".toList, c.isAlphanum = true := by decide
  have htake : ("true".toList ++ rest).takeWhile Char.isAlphanum = "true".toList := by
    rw [List.takeWhile_append_of_pos hkw]
    cases rest with
    | nil => simp
    | cons r0 rs => rw [List.takeWhile_cons_of_neg (by simp [hrest r0 rfl])]; simp
  have hdrop : ("true".toList ++ rest).dropWhile Char.isAlphanum = rest := by
    rw [List.dropWhile_append_of_pos hkw]
    cases rest with
    | nil => simp
    | cons r0 rs => rw [List.dropWhile_cons_of_neg (by simp [hrest r0 rfl])]
  rw [show ("true".toList ++ rest) = 't' :: ("rue".toList ++ rest) from rfl]
  rw [Lexer.next_token_at_eq, List.dropWhile_cons_of_neg (by decide)]
  unfold Lexer.next_token_at
  simp only [List.head?_cons]
  rw [if_neg (by decide)]
  show Lexer.consume_keyword ('t' :: ("rue".toList ++ rest)) = _
  unfold Lexer.consume_keyword
  rw [show ('t' :: ("rue".toList ++ rest)) = ("true".toList ++ rest) from rfl, htake, hdrop]
  rfl

/-- Lexing at the start of the `false` keyword. -/
theorem Lexer.next_token_false {rest : List Char}
    (hrest : ∀ c, rest.head? = some c → c.isAlphanum = false) :
    Lexer.next_token ("false".toList ++ rest) = .ok (.BooleanValue false, rest) := by
  have hkw : ∀ c ∈ "false".toList, c.isAlphanum = true := by decide
  have htake : ("false".toList ++ rest).takeWhile Char.isAlphanum = "false".toList := by
    rw [List.takeWhile_append_of_pos hkw]
    cases rest with
    | nil => simp
    | cons r0 rs => rw [List.takeWhile_cons_of_neg (by simp [hrest r0 rfl])]; simp
  have hdrop : ("false".toList ++ rest).dropWhile Char.isAlphanum = rest := by
    rw [List.dropWhile_append_of_pos hkw]
    cases rest with
    | nil => simp
    | cons r0 rs => rw [List.dropWhile_cons_of_neg (by simp [hrest r0 rfl])]
  rw [show ("false".toList ++ rest) = 'f' :: ("alse".toList ++ rest) from rfl]
  rw [Lexer.next_token_at_eq, List.dropWhile_cons_of_neg (by decide)]
  unfold Lexer.next_token_at
  simp only [List.head?_cons]
  rw [if_neg (by decide)]
  show Lexer.consume_keyword ('f' :: ("alse".toList ++ rest)) = _
  unfold Lexer.consume_keyword
  rw [show ('f' :: ("alse".toList ++ rest)) = ("false".toList ++ rest) from rfl, htake, hdrop]
  rfl

/-- Lexing at the start of the `null` keyword. -/
theorem Lexer.next_token_null {rest : List Char}
    (hrest : ∀ c, rest.head? = some c → c.isAlphanum = false) :
    Lexer.next_token ("null".toList ++ rest) = .ok (.NullValue, rest) := by
  have hkw : ∀ c ∈ "null".toList, c.isAlphanum = true := by decide
  have htake : ("null".toList ++ rest).takeWhile Char.isAlphanum = "null".toList := by
    rw [List.takeWhile_append_of_pos hkw]
    cases rest with
    | nil => simp
    | cons r0 rs => rw [List.takeWhile_cons_of_neg (by simp [hrest r0 rfl])]; simp
  have hdrop : ("null".toList ++ rest).dropWhile Char.isAlphanum = rest := by
    rw [List.dropWhile_append_of_pos hkw]
    cases rest with
    | nil => simp
    | cons r0 rs => rw [List.dropWhile_cons_of_neg (by simp [hrest r0 rfl])]
  rw [show ("null".toList ++ rest) = 'n' :: ("ull".toList ++ rest) from rfl]
  rw [Lexer.next_token_at_eq, List.dropWhile_cons_of_neg (by decide)]
  unfold Lexer.next_token_at
  simp only [List.head?_cons]
  rw [if_neg (by decide)]
  show Lexer.consume_keyword ('n' :: ("ull".toList ++ rest)) = _
  unfold Lexer.consume_keyword
  rw [show ('n' :: ("ull".toList ++ rest)) = ("null".toList ++ rest) from rfl, htake, hdrop]
  rfl

theorem Lexer.tokenize_nil : Lexer.tokenize [] = .ok [Token.End] := rfl

/-- Tokenize across a single punctuation character. -/
theorem Lexer.tokenize_punct {c : Char} {r : List Char} {tk : Token} {ts : List Token}
    (hc : CHAR_TOKENS c = some tk) (hws : c.isWhitespace = false) (ht : tk ≠ Token.End)
    (h2 : Lexer.tokenize r = .ok ts) : Lexer.tokenize (c :: r) = .ok (tk :: ts) := by
  have h1 : Lexer.next_token (([c] : List Char) ++ r) = .ok (tk, r) := by
    rw [show (([c] : List Char) ++ r) = c :: r from rfl]
    exact Lexer.next_token_punct hc hws
  have := Lexer.tokenize_step h1 ht h2
  rw [show (([c] : List Char) ++ r) = c :: r from rfl] at this
  exact this

theorem sepSafe_append {out rest : List Char}
    (h1 : out = [] ∨ out.head? = some ',' ∨ out.head? = some '\n')
    (h2 : sepSafe rest) : sepSafe (out ++ rest) := by
  rcases h1 with rfl | h1 | h1
  · simpa using h2
  · cases out with
    | nil => simp at h1
    | cons o os =>
      simp only [List.head?_cons, Option.some.injEq] at h1
      subst h1
      exact Or.inr (Or.inl rfl)
  · cases out with
    | nil => simp at h1
    | cons o os =>
      simp only [List.head?_cons, Option.some.injEq] at h1
      subst h1
      exact Or.inr (Or.inr rfl)


/-- The round-trip property of one formatted value: formatting succeeds
and its output, followed by any safe suffix, lexes to the canonical
token sequence. -/
def FmtLexV (t : Node) : Prop :=
  ∀ opts ind, ∃ out, Formatter.format opts ind t = .ok out ∧
    ∀ rest ts, sepSafe rest → Lexer.tokenize rest = .ok ts →
      Lexer.tokenize (out ++ rest) = .ok (valueToks t ++ ts)

/-- The round-trip property of a formatted member list. -/
def FmtLexL (ms : List Node) : Prop :=
  ∀ opts ind first, ∃ out, Formatter.format_children opts ind ms first = .ok out ∧
    (out = [] ∨ out.head? = some ',' ∨ out.head? = some '\n') ∧
    ∀ rest ts, sepSafe rest → Lexer.tokenize rest = .ok ts →
      Lexer.tokenize (out ++ rest) =
        .ok ((if ms.isEmpty then [] else if first then [] else [Token.Comma]) ++
          (listToks ms ++ ts))

theorem fmt_lex : ∀ N : Nat,
    (∀ t, WFValue t → (valueToks t).length ≤ N → FmtLexV t) ∧
    (∀ ms, WFMembers ms → (listToks ms).length + 1 ≤ N → FmtLexL ms) ∧
    (∀ es, WFElems es → (listToks es).length + 1 ≤ N → FmtLexL es) := by
  intro N
  induction N with
  | zero =>
    refine ⟨?_, ?_, ?_⟩
    · intro t hwf hlen
      exfalso
      cases hwf <;>
        (simp only [valueToks, List.length_cons, List.length_append, List.length_nil] at hlen;
         omega)
    · intro ms hwf hlen; omega
    · intro es hwf hlen; omega
  | succ N ihN =>
    obtain ⟨ihV, ihM, ihE⟩ := ihN
    -- the member / element chunk: a separator, a newline, the indent,
    -- the member text, then the rest of the children
    have hchunk : ∀ (first : Bool) (ind : Nat) (opts : FormatOptions)
        (mstr out2 rest : List Char) (mtoks ts2 : List Token),
        sepSafe (out2 ++ rest) →
        (Lexer.tokenize (mstr ++ (out2 ++ rest)) = .ok (mtoks ++ ts2)) →
        Lexer.tokenize (((if first then ([] : List Char) else [',']) ++
            ('\n' :: (Formatter.indent_string opts ind ++ mstr)) ++ out2) ++ rest) =
          .ok ((if first then ([] : List Token) else [Token.Comma]) ++ (mtoks ++ ts2)) := by
      intro first ind opts mstr out2 rest mtoks ts2 hsafe hm
      have hws : ∀ c ∈ ('\n' :: Formatter.indent_string opts ind), c.isWhitespace := by
        intro c hc
        rcases List.mem_cons.mp hc with rfl | hc
        · decide
        · exact indent_string_ws _ _ c hc
      have hmid : Lexer.tokenize (('\n' :: Formatter.indent_string opts ind) ++
          (mstr ++ (out2 ++ rest))) = .ok (mtoks ++ ts2) := by
        rw [Lexer.tokenize_ws hws]
        exact hm
      cases first with
      | true =>
        simp only [if_true]
        have heq : (([] : List Char) ++ ('\n' :: (Formatter.indent_string opts ind ++ mstr)) ++
            out2) ++ rest =
            ('\n' :: Formatter.indent_string opts ind) ++ (mstr ++ (out2 ++ rest)) := by
          simp [List.append_assoc]
        rw [heq, hmid]
        simp
      | false =>
        simp only [Bool.false_eq_true, if_false]
        have heq : ((([','] : List Char) ++ ('\n' :: (Formatter.indent_string opts ind ++ mstr)) ++
            out2) ++ rest) =
            ',' :: (('\n' :: Formatter.indent_string opts ind) ++ (mstr ++ (out2 ++ rest))) := by
          simp [List.append_assoc]
        rw [heq]
        exact Lexer.tokenize_punct rfl rfl (fun hh => Token.noConfusion hh) hmid
    have hV : ∀ t, WFValue t → (valueToks t).length ≤ N + 1 → FmtLexV t := by
      intro t hwf hlen
      cases hwf with
      | str hq =>
        rename_i s
        intro opts ind
        refine ⟨'"' :: s ++ ['"'], rfl, ?_⟩
        intro rest ts hsafe hts
        have h1 : Lexer.next_token (('"' :: s ++ ['"']) ++ rest) = .ok (.StringValue s, rest) := by
          rw [show (('"' :: s ++ ['"']) ++ rest) = ('"' :: s ++ '"' :: rest) from by simp]
          exact Lexer.next_token_string hq
        have h2 := Lexer.tokenize_step h1 (fun hh => Token.noConfusion hh) hts
        simpa [valueToks] using h2
      | num hn =>
        rename_i n
        intro opts ind
        refine ⟨n.toChars, rfl, ?_⟩
        intro rest ts hsafe hts
        have h2 := Lexer.tokenize_step (Lexer.next_token_number hn (sepSafe_not_f64 hsafe))
          (fun hh => Token.noConfusion hh) hts
        simpa [valueToks] using h2
      | true_kw =>
        intro opts ind
        refine ⟨"true".toList, rfl, ?_⟩
        intro rest ts hsafe hts
        have h2 := Lexer.tokenize_step (Lexer.next_token_true (sepSafe_not_alphanum hsafe))
          (fun hh => Token.noConfusion hh) hts
        simpa [valueToks] using h2
      | false_kw =>
        intro opts ind
        refine ⟨"false".toList, rfl, ?_⟩
        intro rest ts hsafe hts
        have h2 := Lexer.tokenize_step (Lexer.next_token_false (sepSafe_not_alphanum hsafe))
          (fun hh => Token.noConfusion hh) hts
        simpa [valueToks] using h2
      | null_kw =>
        intro opts ind
        refine ⟨"null".toList, rfl, ?_⟩
        intro rest ts hsafe hts
        have h2 := Lexer.tokenize_step (Lexer.next_token_null (sepSafe_not_alphanum hsafe))
          (fun hh => Token.noConfusion hh) hts
        simpa [valueToks] using h2
      | obj hms =>
        rename_i ms
        have hlt : (listToks ms).length + 1 ≤ N := by
          simp only [valueToks, List.length_cons, List.length_append] at hlen
          omega
        intro opts ind
        obtain ⟨body, hbody, hbhead, hbtoks⟩ := ihM ms hms hlt opts (ind + 1) true
        refine ⟨'{' :: (body ++ '\n' :: (Formatter.indent_string opts ind ++ ['}'])), ?_, ?_⟩
        · show (match Formatter.format_children opts (ind + 1) ms true with
            | .error e => Except.error e
            | .ok body =>
              Except.ok ('{' :: (body ++ '\n' :: (Formatter.indent_string opts ind ++ ['}'])))) = _
          rw [hbody]
        · intro rest ts hsafe hts
          have h1 : Lexer.tokenize ('}' :: rest) = .ok (Token.RBrace :: ts) :=
            Lexer.tokenize_punct rfl rfl (fun hh => Token.noConfusion hh) hts
          have hws : ∀ c ∈ ('\n' :: Formatter.indent_string opts ind), c.isWhitespace := by
            intro c hc
            rcases List.mem_cons.mp hc with rfl | hc
            · decide
            · exact indent_string_ws _ _ c hc
          have h2 : Lexer.tokenize (('\n' :: Formatter.indent_string opts ind) ++ ('}' :: rest)) =
              .ok (Token.RBrace :: ts) := by
            rw [Lexer.tokenize_ws hws]
            exact h1
          have h3 := hbtoks (('\n' :: Formatter.indent_string opts ind) ++ ('}' :: rest))
            (Token.RBrace :: ts) (Or.inr (Or.inr (by simp))) h2
          have h4 : Lexer.tokenize ('{' ::
              (body ++ (('\n' :: Formatter.indent_string opts ind) ++ ('}' :: rest)))) =
              .ok (Token.LBrace ::
                ((if ms.isEmpty then [] else if true then [] else [Token.Comma]) ++
                  (listToks ms ++ (Token.RBrace :: ts)))) :=
            Lexer.tokenize_punct rfl rfl (fun hh => Token.noConfusion hh) h3
          have heq : (('{' :: (body ++ '\n' :: (Formatter.indent_string opts ind ++ ['}']))) ++
              rest) =
              ('{' :: (body ++ (('\n' :: Formatter.indent_string opts ind) ++ ('}' :: rest)))) := by
            simp
          rw [heq, h4]
          have : (if ms.isEmpty then ([] : List Token) else if true then [] else [Token.Comma]) =
              [] := by
            cases ms <;> simp
          rw [this]
          simp [valueToks]
      | arr hes =>
        rename_i es
        have hlt : (listToks es).length + 1 ≤ N := by
          simp only [valueToks, List.length_cons, List.length_append] at hlen
          omega
        intro opts ind
        obtain ⟨body, hbody, hbhead, hbtoks⟩ := ihE es hes hlt opts (ind + 1) true
        refine ⟨'[' :: (body ++ '\n' :: (Formatter.indent_string opts ind ++ [']'])), ?_, ?_⟩
        · show (match Formatter.format_children opts (ind + 1) es true with
            | .error e => Except.error e
            | .ok body =>
              Except.ok ('[' :: (body ++ '\n' :: (Formatter.indent_string opts ind ++ [']'])))) = _
          rw [hbody]
        · intro rest ts hsafe hts
          have h1 : Lexer.tokenize (']' :: rest) = .ok (Token.RBracket :: ts) :=
            Lexer.tokenize_punct rfl rfl (fun hh => Token.noConfusion hh) hts
          have hws : ∀ c ∈ ('\n' :: Formatter.indent_string opts ind), c.isWhitespace := by
            intro c hc
            rcases List.mem_cons.mp hc with rfl | hc
            · decide
            · exact indent_string_ws _ _ c hc
          have h2 : Lexer.tokenize (('\n' :: Formatter.indent_string opts ind) ++ (']' :: rest)) =
              .ok (Token.RBracket :: ts) := by
            rw [Lexer.tokenize_ws hws]
            exact h1
          have h3 := hbtoks (('\n' :: Formatter.indent_string opts ind) ++ (']' :: rest))
            (Token.RBracket :: ts) (Or.inr (Or.inr (by simp))) h2
          have h4 : Lexer.tokenize ('[' ::
              (body ++ (('\n' :: Formatter.indent_string opts ind) ++ (']' :: rest)))) =
              .ok (Token.LBracket ::
                ((if es.isEmpty then [] else if true then [] else [Token.Comma]) ++
                  (listToks es ++ (Token.RBracket :: ts)))) :=
            Lexer.tokenize_punct rfl rfl (fun hh => Token.noConfusion hh) h3
          have heq : (('[' :: (body ++ '\n' :: (Formatter.indent_string opts ind ++ [']']))) ++
              rest) =
              ('[' :: (body ++ (('\n' :: Formatter.indent_string opts ind) ++ (']' :: rest)))) := by
            simp
          rw [heq, h4]
          have : (if es.isEmpty then ([] : List Token) else if true then [] else [Token.Comma]) =
              [] := by
            cases es <;> simp
          rw [this]
          simp [valueToks]
    have hM : ∀ ms, WFMembers ms → (listToks ms).length + 1 ≤ N + 1 → FmtLexL ms := by
      intro ms hwf hlen
      cases hwf with
      | nil =>
        intro opts ind first
        refine ⟨[], rfl, Or.inl rfl, ?_⟩
        intro rest ts hsafe hts
        simpa [listToks] using hts
      | cons hk hv hms =>
        rename_i k v ms'
        -- the member's own tokens
        have hvlen : (valueToks v).length ≤ N + 1 := by
          cases ms' with
          | nil => simp only [listToks, valueToks, List.length_append, List.length_cons] at hlen ⊢; omega
          | cons m2 ms2 =>
            simp only [listToks, valueToks, List.length_append, List.length_cons] at hlen ⊢
            omega
        have hFv := hV v hv hvlen
        intro opts ind first
        obtain ⟨vs, hvs, hvtoks⟩ := hFv opts ind
        have hrec : FmtLexL ms' := by
          cases ms' with
          | nil =>
            intro opts' ind' first'
            refine ⟨[], rfl, Or.inl rfl, ?_⟩
            intro rest ts hsafe hts
            simpa [listToks] using hts
          | cons m2 ms2 =>
            refine ihM (m2 :: ms2) hms ?_
            simp only [listToks, valueToks, List.length_append, List.length_cons] at hlen ⊢
            cases ms2 <;> omega
        obtain ⟨out2, hout2, hhead2, htoks2⟩ := hrec opts ind false
        -- formatted member text
        have hkfmt : Formatter.format opts ind (Node.mk (.Identifier k) []) =
            .ok ('"' :: k ++ ['"']) := rfl
        have hmfmt : Formatter.format opts ind
            (Node.mk .PropertyAssignment [Node.mk (.Identifier k) [], v]) =
            .ok (('"' :: k ++ ['"']) ++ ':' :: ' ' :: vs) := by
          show (match Formatter.format opts ind (Node.mk (.Identifier k) []) with
            | .error e => Except.error e
            | .ok ks =>
              match Formatter.format opts ind v with
              | .error e => Except.error e
              | .ok vs => Except.ok (ks ++ ':' :: ' ' :: vs)) = _
          rw [hkfmt, hvs]
        have hcfmt : Formatter.format_children opts ind
            (Node.mk .PropertyAssignment [Node.mk (.Identifier k) [], v] :: ms') first =
            .ok ((if first then [] else [',']) ++
              ('\n' :: (Formatter.indent_string opts ind ++ (('"' :: k ++ ['"']) ++ ':' :: ' ' :: vs)))
              ++ out2) := by
          show (match Formatter.format opts ind
              (Node.mk .PropertyAssignment [Node.mk (.Identifier k) [], v]) with
            | .error e => Except.error e
            | .ok cstr =>
              match Formatter.format_children opts ind ms' false with
              | .error e => Except.error e
              | .ok rest => Except.ok ((if first then [] else [',']) ++
                  '\n' :: (Formatter.indent_string opts ind ++ cstr) ++ rest)) = _
          rw [hmfmt, hout2]
        refine ⟨_, hcfmt, ?_, ?_⟩
        · cases first with
          | true => simp
          | false => simp
        · intro rest ts hsafe hts
          -- value followed by the remaining children and the suffix
          have hsafe2 : sepSafe (out2 ++ rest) := sepSafe_append hhead2 hsafe
          have hts2 := htoks2 rest ts hsafe hts
          have hvt := hvtoks (out2 ++ rest) _ hsafe2 hts2
          -- colon, space before the value
          have hcolon : Lexer.tokenize (':' :: ' ' :: (vs ++ (out2 ++ rest))) =
              .ok (Token.Colon :: (valueToks v ++
                ((if ms'.isEmpty then [] else if false then [] else [Token.Comma]) ++
                  (listToks ms' ++ ts)))) := by
            refine Lexer.tokenize_punct rfl rfl (fun hh => Token.noConfusion hh) ?_
            rw [show (' ' :: (vs ++ (out2 ++ rest))) = ([' '] ++ (vs ++ (out2 ++ rest))) from rfl]
            rw [Lexer.tokenize_ws (by intro c hc; simp only [List.mem_singleton] at hc; subst hc; decide)]
            exact hvt
          -- the key string
          have hk1 : Lexer.next_token (('"' :: k ++ ['"']) ++ (':' :: ' ' :: (vs ++ (out2 ++ rest)))) =
              .ok (.StringValue k, ':' :: ' ' :: (vs ++ (out2 ++ rest))) := by
            rw [show (('"' :: k ++ ['"']) ++ (':' :: ' ' :: (vs ++ (out2 ++ rest)))) =
              ('"' :: k ++ '"' :: (':' :: ' ' :: (vs ++ (out2 ++ rest)))) from by simp]
            exact Lexer.next_token_string hk
          have hkey := Lexer.tokenize_step hk1 (fun hh => Token.noConfusion hh) hcolon
          have hfinal := hchunk first ind opts (('"' :: k ++ ['"']) ++ ':' :: ' ' :: vs) out2 rest
            (Token.StringValue k :: Token.Colon :: valueToks v)
            ((if ms'.isEmpty then [] else if false then [] else [Token.Comma]) ++
              (listToks ms' ++ ts)) hsafe2 (by simpa using hkey)
          rw [hfinal]
          -- identify the token lists
          cases ms' with
          | nil =>
            cases first <;> simp [listToks, valueToks]
          | cons m2 ms2 =>
            cases first <;> simp [listToks, valueToks]
    have hE : ∀ es, WFElems es → (listToks es).length + 1 ≤ N + 1 → FmtLexL es := by
      intro es hwf hlen
      cases hwf with
      | nil =>
        intro opts ind first
        refine ⟨[], rfl, Or.inl rfl, ?_⟩
        intro rest ts hsafe hts
        simpa [listToks] using hts
      | cons he hes =>
        rename_i e es'
        have hvlen : (valueToks e).length ≤ N + 1 := by
          cases es' with
          | nil => simp only [listToks, List.length_append, List.length_cons] at hlen ⊢; omega
          | cons e2 es2 =>
            simp only [listToks, List.length_append, List.length_cons] at hlen ⊢
            omega
        have hFv := hV e he hvlen
        intro opts ind first
        obtain ⟨vs, hvs, hvtoks⟩ := hFv opts ind
        have hrec : FmtLexL es' := by
          cases es' with
          | nil =>
            intro opts' ind' first'
            refine ⟨[], rfl, Or.inl rfl, ?_⟩
            intro rest ts hsafe hts
            simpa [listToks] using hts
          | cons e2 es2 =>
            refine ihE (e2 :: es2) hes ?_
            simp only [listToks, List.length_append, List.length_cons] at hlen ⊢
            cases es2 <;> omega
        obtain ⟨out2, hout2, hhead2, htoks2⟩ := hrec opts ind false
        have hcfmt : Formatter.format_children opts ind (e :: es') first =
            .ok ((if first then [] else [',']) ++
              ('\n' :: (Formatter.indent_string opts ind ++ vs)) ++ out2) := by
          show (match Formatter.format opts ind e with
            | .error e => Except.error e
            | .ok cstr =>
              match Formatter.format_children opts ind es' false with
              | .error e => Except.error e
              | .ok rest => Except.ok ((if first then [] else [',']) ++
                  '\n' :: (Formatter.indent_string opts ind ++ cstr) ++ rest)) = _
          rw [hvs, hout2]
        refine ⟨_, hcfmt, ?_, ?_⟩
        · cases first with
          | true => simp
          | false => simp
        · intro rest ts hsafe hts
          have hsafe2 : sepSafe (out2 ++ rest) := sepSafe_append hhead2 hsafe
          have hts2 := htoks2 rest ts hsafe hts
          have hvt := hvtoks (out2 ++ rest) _ hsafe2 hts2
          have hfinal := hchunk first ind opts vs out2 rest (valueToks e)
            ((if es'.isEmpty then [] else if false then [] else [Token.Comma]) ++
              (listToks es' ++ ts)) hsafe2 (by simpa using hvt)
          rw [hfinal]
          cases es' with
          | nil =>
            cases first <;> simp [listToks, valueToks]
          | cons e2 es2 =>
            cases first <;> simp [listToks, valueToks]
    exact ⟨hV, hM, hE⟩




/-- Parsing the canonical token sequence of a well-formed tree (with any
trailing tokens) returns exactly that tree, for every large enough fuel. -/
theorem Parser.canon : ∀ N : Nat,
    (∀ t, WFValue t → (valueToks t).length ≤ N →
      ∀ rest, ∃ f0, ∀ f, f0 ≤ f →
        Parser.consume_value f (valueToks t ++ rest) = some (.ok t rest)) ∧
    (∀ ms, WFMembers ms → (listToks ms).length + 1 ≤ N →
      ∀ rest, ∃ f0, ∀ f, f0 ≤ f →
        Parser.consume_object_loop f (listToks ms ++ Token.RBrace :: rest) =
          some (.ok ms rest)) ∧
    (∀ es, WFElems es → (listToks es).length + 1 ≤ N →
      ∀ rest, ∃ f0, ∀ f, f0 ≤ f →
        Parser.consume_array_loop f (listToks es ++ Token.RBracket :: rest) =
          some (.ok es rest)) := by
  intro N
  induction N with
  | zero =>
    refine ⟨?_, ?_, ?_⟩
    · intro t hwf hlen
      exfalso
      cases hwf <;>
        (simp only [valueToks, List.length_cons, List.length_append, List.length_nil] at hlen;
         omega)
    · intro ms hwf hlen; omega
    · intro es hwf hlen; omega
  | succ N ihN =>
    obtain ⟨ihV, ihM, ihE⟩ := ihN
    have hV : ∀ t, WFValue t → (valueToks t).length ≤ N + 1 →
        ∀ rest, ∃ f0, ∀ f, f0 ≤ f →
          Parser.consume_value f (valueToks t ++ rest) = some (.ok t rest) := by
      intro t hwf hlen rest
      cases hwf with
      | str hq =>
        rename_i s
        refine ⟨1, ?_⟩
        intro f hf
        obtain ⟨g, rfl⟩ : ∃ g, f = g + 1 := ⟨f - 1, by omega⟩
        simp [valueToks, Parser.consume_value, Parser.consume_string]
      | num hn =>
        rename_i n
        refine ⟨1, ?_⟩
        intro f hf
        obtain ⟨g, rfl⟩ : ∃ g, f = g + 1 := ⟨f - 1, by omega⟩
        simp [valueToks, Parser.consume_value, Parser.consume_number]
      | true_kw =>
        refine ⟨1, ?_⟩
        intro f hf
        obtain ⟨g, rfl⟩ : ∃ g, f = g + 1 := ⟨f - 1, by omega⟩
        simp [valueToks, Parser.consume_value, Parser.consume_keyword]
      | false_kw =>
        refine ⟨1, ?_⟩
        intro f hf
        obtain ⟨g, rfl⟩ : ∃ g, f = g + 1 := ⟨f - 1, by omega⟩
        simp [valueToks, Parser.consume_value, Parser.consume_keyword]
      | null_kw =>
        refine ⟨1, ?_⟩
        intro f hf
        obtain ⟨g, rfl⟩ : ∃ g, f = g + 1 := ⟨f - 1, by omega⟩
        simp [valueToks, Parser.consume_value, Parser.consume_keyword]
      | obj hms =>
        rename_i ms
        have hlt : (listToks ms).length + 1 ≤ N := by
          simp only [valueToks, List.length_cons, List.length_append] at hlen
          omega
        obtain ⟨f0, hf0⟩ := ihM ms hms hlt rest
        refine ⟨f0 + 2, ?_⟩
        intro f hf
        obtain ⟨g, rfl⟩ : ∃ g, f = g + 2 := ⟨f - 2, by omega⟩
        have heq : valueToks (Node.mk .ObjectLiteralExpression ms) ++ rest =
            Token.LBrace :: (listToks ms ++ Token.RBrace :: rest) := by
          simp [valueToks]
        rw [heq]
        have e1 : Parser.consume_value (g + 2)
            (Token.LBrace :: (listToks ms ++ Token.RBrace :: rest)) =
            Parser.consume_object (g + 1)
              (Token.LBrace :: (listToks ms ++ Token.RBrace :: rest)) := rfl
        have e2 : Parser.consume_object (g + 1)
            (Token.LBrace :: (listToks ms ++ Token.RBrace :: rest)) =
            (match Parser.consume_object_loop g (listToks ms ++ Token.RBrace :: rest) with
             | some (.ok pas rest') =>
               some (.ok (Node.mk .ObjectLiteralExpression pas) rest')
             | some (.err e) => some (.err e)
             | some (.panicked e) => some (.panicked e)
             | none => none) := rfl
        rw [e1, e2, hf0 g (by omega)]
      | arr hes =>
        rename_i es
        have hlt : (listToks es).length + 1 ≤ N := by
          simp only [valueToks, List.length_cons, List.length_append] at hlen
          omega
        obtain ⟨f0, hf0⟩ := ihE es hes hlt rest
        refine ⟨f0 + 2, ?_⟩
        intro f hf
        obtain ⟨g, rfl⟩ : ∃ g, f = g + 2 := ⟨f - 2, by omega⟩
        have heq : valueToks (Node.mk .ArrayLiteralExpression es) ++ rest =
            Token.LBracket :: (listToks es ++ Token.RBracket :: rest) := by
          simp [valueToks]
        rw [heq]
        have e1 : Parser.consume_value (g + 2)
            (Token.LBracket :: (listToks es ++ Token.RBracket :: rest)) =
            Parser.consume_array (g + 1)
              (Token.LBracket :: (listToks es ++ Token.RBracket :: rest)) := rfl
        have e2 : Parser.consume_array (g + 1)
            (Token.LBracket :: (listToks es ++ Token.RBracket :: rest)) =
            (match Parser.consume_array_loop g (listToks es ++ Token.RBracket :: rest) with
             | some (.ok es' rest') =>
               some (.ok (Node.mk .ArrayLiteralExpression es') rest')
             | some (.err e) => some (.err e)
             | some (.panicked e) => some (.panicked e)
             | none => none) := rfl
        rw [e1, e2, hf0 g (by omega)]
    have hM : ∀ ms, WFMembers ms → (listToks ms).length + 1 ≤ N + 1 →
        ∀ rest, ∃ f0, ∀ f, f0 ≤ f →
          Parser.consume_object_loop f (listToks ms ++ Token.RBrace :: rest) =
            some (.ok ms rest) := by
      intro ms hwf hlen rest
      cases hwf with
      | nil =>
        refine ⟨1, ?_⟩
        intro f hf
        obtain ⟨g, rfl⟩ : ∃ g, f = g + 1 := ⟨f - 1, by omega⟩
        simp [listToks, Parser.consume_object_loop]
      | cons hk hv hms =>
        rename_i k v ms'
        have hvlen : (valueToks v).length ≤ N + 1 := by
          cases ms' with
          | nil =>
            simp only [listToks, valueToks, List.length_append, List.length_cons] at hlen ⊢
            omega
          | cons m2 ms2 =>
            simp only [listToks, valueToks, List.length_append, List.length_cons] at hlen ⊢
            omega
        -- the separator continuation after the member's value tokens
        have hrest2 : ∃ f1, ∀ f, f1 ≤ f →
            Parser.consume_object_loop f
              ((if ms'.isEmpty then Token.RBrace :: rest
                else Token.Comma :: (listToks ms' ++ Token.RBrace :: rest))) =
              some (.ok ms' rest) := by
          cases ms' with
          | nil =>
            refine ⟨1, ?_⟩
            intro f hf
            obtain ⟨g, rfl⟩ : ∃ g, f = g + 1 := ⟨f - 1, by omega⟩
            simp [Parser.consume_object_loop]
          | cons m2 ms2 =>
            have hlt : (listToks (m2 :: ms2)).length + 1 ≤ N := by
              simp only [listToks, valueToks, List.length_append, List.length_cons] at hlen ⊢
              cases ms2 <;> omega
            obtain ⟨f1, hf1⟩ := ihM (m2 :: ms2) hms hlt rest
            refine ⟨f1 + 1, ?_⟩
            intro f hf
            obtain ⟨g, rfl⟩ : ∃ g, f = g + 1 := ⟨f - 1, by omega⟩
            have e1 : Parser.consume_object_loop (g + 1)
                (Token.Comma :: (listToks (m2 :: ms2) ++ Token.RBrace :: rest)) =
                Parser.consume_object_loop g
                  (listToks (m2 :: ms2) ++ Token.RBrace :: rest) := rfl
            simp only [List.isEmpty_cons, Bool.false_eq_true, if_false]
            rw [e1, hf1 g (by omega)]
        obtain ⟨f1, hf1⟩ := hrest2
        obtain ⟨f0v, hf0v⟩ := hV v hv hvlen
          ((if ms'.isEmpty then Token.RBrace :: rest
            else Token.Comma :: (listToks ms' ++ Token.RBrace :: rest)))
        refine ⟨f0v + f1 + 3, ?_⟩
        intro f hf
        obtain ⟨g, rfl⟩ : ∃ g, f = g + 2 := ⟨f - 2, by omega⟩
        have heq : listToks (Node.mk .PropertyAssignment [Node.mk (.Identifier k) [], v] :: ms')
            ++ Token.RBrace :: rest =
            Token.StringValue k :: Token.Colon ::
              (valueToks v ++
                (if ms'.isEmpty then Token.RBrace :: rest
                 else Token.Comma :: (listToks ms' ++ Token.RBrace :: rest))) := by
          cases ms' with
          | nil => simp [listToks, valueToks]
          | cons m2 ms2 => simp [listToks, valueToks]
        rw [heq]
        have e1 : Parser.consume_object_loop (g + 2)
            (Token.StringValue k :: Token.Colon :: (valueToks v ++
              (if ms'.isEmpty then Token.RBrace :: rest
               else Token.Comma :: (listToks ms' ++ Token.RBrace :: rest)))) =
            (match Parser.consume_property_assignment (g + 1)
                (Token.StringValue k :: Token.Colon :: (valueToks v ++
                  (if ms'.isEmpty then Token.RBrace :: rest
                   else Token.Comma :: (listToks ms' ++ Token.RBrace :: rest)))) with
             | some (.ok pa rest') =>
               (match Parser.consume_object_loop (g + 1) rest' with
                | some (.ok pas rest'') => some (.ok (pa :: pas) rest'')
                | r => r)
             | some (.err e) => some (.err e)
             | some (.panicked e) => some (.panicked e)
             | none => none) := rfl
        have e2 : Parser.consume_property_assignment (g + 1)
            (Token.StringValue k :: Token.Colon :: (valueToks v ++
              (if ms'.isEmpty then Token.RBrace :: rest
               else Token.Comma :: (listToks ms' ++ Token.RBrace :: rest)))) =
            (match Parser.consume_value g (valueToks v ++
                (if ms'.isEmpty then Token.RBrace :: rest
                 else Token.Comma :: (listToks ms' ++ Token.RBrace :: rest))) with
             | some (.ok value rest') =>
               some (.ok (Node.mk .PropertyAssignment
                 [Node.mk (.Identifier k) [], value]) rest')
             | r => r) := rfl
        rw [e1, e2, hf0v g (by omega)]
        dsimp only
        rw [hf1 (g + 1) (by omega)]
    have hE : ∀ es, WFElems es → (listToks es).length + 1 ≤ N + 1 →
        ∀ rest, ∃ f0, ∀ f, f0 ≤ f →
          Parser.consume_array_loop f (listToks es ++ Token.RBracket :: rest) =
            some (.ok es rest) := by
      intro es hwf hlen rest
      cases hwf with
      | nil =>
        refine ⟨1, ?_⟩
        intro f hf
        obtain ⟨g, rfl⟩ : ∃ g, f = g + 1 := ⟨f - 1, by omega⟩
        simp [listToks, Parser.consume_array_loop]
      | cons he hes =>
        rename_i e es'
        have hvlen : (valueToks e).length ≤ N + 1 := by
          cases es' with
          | nil =>
            simp only [listToks, List.length_append, List.length_cons] at hlen ⊢
            omega
          | cons e2 es2 =>
            simp only [listToks, List.length_append, List.length_cons] at hlen ⊢
            omega
        have hrest2 : ∃ f1, ∀ f, f1 ≤ f →
            Parser.consume_array_loop f
              ((if es'.isEmpty then Token.RBracket :: rest
                else Token.Comma :: (listToks es' ++ Token.RBracket :: rest))) =
              some (.ok es' rest) := by
          cases es' with
          | nil =>
            refine ⟨1, ?_⟩
            intro f hf
            obtain ⟨g, rfl⟩ : ∃ g, f = g + 1 := ⟨f - 1, by omega⟩
            simp [Parser.consume_array_loop]
          | cons e2 es2 =>
            have hlt : (listToks (e2 :: es2)).length + 1 ≤ N := by
              simp only [listToks, List.length_append, List.length_cons] at hlen ⊢
              cases es2 <;> omega
            obtain ⟨f1, hf1⟩ := ihE (e2 :: es2) hes hlt rest
            refine ⟨f1 + 1, ?_⟩
            intro f hf
            obtain ⟨g, rfl⟩ : ∃ g, f = g + 1 := ⟨f - 1, by omega⟩
            have e1 : Parser.consume_array_loop (g + 1)
                (Token.Comma :: (listToks (e2 :: es2) ++ Token.RBracket :: rest)) =
                Parser.consume_array_loop g
                  (listToks (e2 :: es2) ++ Token.RBracket :: rest) := rfl
            simp only [List.isEmpty_cons, Bool.false_eq_true, if_false]
            rw [e1, hf1 g (by omega)]
        obtain ⟨f1, hf1⟩ := hrest2
        obtain ⟨f0v, hf0v⟩ := hV e he hvlen
          ((if es'.isEmpty then Token.RBracket :: rest
            else Token.Comma :: (listToks es' ++ Token.RBracket :: rest)))
        refine ⟨f0v + f1 + 3, ?_⟩
        intro f hf
        obtain ⟨g, rfl⟩ : ∃ g, f = g + 1 := ⟨f - 1, by omega⟩
        have heq : listToks (e :: es') ++ Token.RBracket :: rest =
            valueToks e ++
              (if es'.isEmpty then Token.RBracket :: rest
               else Token.Comma :: (listToks es' ++ Token.RBracket :: rest)) := by
          cases es' with
          | nil => simp [listToks]
          | cons e2 es2 => simp [listToks]
        rw [heq]
        -- the array loop peeks a value-starting token, then parses the value
        have hbody : Parser.consume_array_loop (g + 1)
            (valueToks e ++
              (if es'.isEmpty then Token.RBracket :: rest
               else Token.Comma :: (listToks es' ++ Token.RBracket :: rest))) =
            (match Parser.consume_value g
                (valueToks e ++
                  (if es'.isEmpty then Token.RBracket :: rest
                   else Token.Comma :: (listToks es' ++ Token.RBracket :: rest))) with
             | some (.ok val rest') =>
               (match Parser.consume_array_loop g rest' with
                | some (.ok es'' rest'') => some (.ok (val :: es'') rest'')
                | r => r)
             | some (.err e2) => some (.err e2)
             | some (.panicked e2) => some (.panicked e2)
             | none => none) := by
          cases he <;> rfl
        rw [hbody, hf0v g (by omega)]
        dsimp only
        rw [hf1 g (by omega)]
    exact ⟨hV, hM, hE⟩


/-- A successful `consume_object` always builds an `ObjectLiteralExpression`. -/
theorem Parser.consume_object_shape {f : Nat} {toks rest : List Token} {n : Node}
    (h : Parser.consume_object f toks = some (.ok n rest)) :
    ∃ ms, n = Node.mk .ObjectLiteralExpression ms := by
  cases f with
  | zero => exact absurd h (by simp [Parser.consume_object])
  | succ g =>
    unfold Parser.consume_object at h
    cases hx : Parser.consume_object_loop g toks.tail <;> rw [hx] at h
    case none => cases h
    case some r =>
      cases r with
      | ok ms r2 =>
        simp only [Option.some.injEq, PRes.ok.injEq] at h
        exact ⟨ms, h.1.symm⟩
      | err e => cases h
      | panicked e => cases h

/-- A successful `consume_array` always builds an `ArrayLiteralExpression`. -/
theorem Parser.consume_array_shape {f : Nat} {toks rest : List Token} {n : Node}
    (h : Parser.consume_array f toks = some (.ok n rest)) :
    ∃ es, n = Node.mk .ArrayLiteralExpression es := by
  cases f with
  | zero => exact absurd h (by simp [Parser.consume_array])
  | succ g =>
    unfold Parser.consume_array at h
    cases hx : Parser.consume_array_loop g toks.tail <;> rw [hx] at h
    case none => cases h
    case some r =>
      cases r with
      | ok es r2 =>
        simp only [Option.some.injEq, PRes.ok.injEq] at h
        exact ⟨es, h.1.symm⟩
      | err e => cases h
      | panicked e => cases h

/-- A tree returned by `Parser.parse` on a well-formed token stream is a
well-formed object or array literal. -/
theorem Parser.parse_ok_WF {toks : List Token} {t : Node}
    (hWF : ∀ tok ∈ toks, tok.WF) (h : Parser.parse toks = .ok t) :
    WFxValue t ∧ ((∃ ms, t = Node.mk .ObjectLiteralExpression ms) ∨
      (∃ es, t = Node.mk .ArrayLiteralExpression es)) := by
  unfold Parser.parse at h
  cases hhd : toks.head? <;> rw [hhd] at h
  case none => cases h
  case some tok =>
    cases tok <;> dsimp only at h <;> try cases h
    case LBrace =>
      cases hco : Parser.consume_object (Parser.parseFuel toks) toks <;> rw [hco] at h
      case none => cases h
      case some r =>
        cases r with
        | ok n rest =>
          cases h
          exact ⟨((Parser.output_WF _).2.1 hWF hco).1,
            Or.inl (Parser.consume_object_shape hco)⟩
        | err e => cases h
        | panicked e => cases h
    case LBracket =>
      cases hca : Parser.consume_array (Parser.parseFuel toks) toks <;> rw [hca] at h
      case none => cases h
      case some r =>
        cases r with
        | ok n rest =>
          cases h
          exact ⟨((Parser.output_WF _).2.2.1 hWF hca).1,
            Or.inr (Parser.consume_array_shape hca)⟩
        | err e => cases h
        | panicked e => cases h

/-- Round trip: formatting a parsed tree succeeds, and re-parsing the
formatted text yields the same tree, for any formatting options. -/
theorem parse_format_roundtrip {cs : List Char} {t : Node} (opts : FormatOptions)
    (h : Parser.parse_str cs = .ok t) (hfin : Node.finiteNums t = true) :
    ∃ out, Formatter.format_root opts t = .ok out ∧
      Parser.parse_str out = .ok t := by
  unfold Parser.parse_str at h
  cases htk : Lexer.tokenize cs <;> rw [htk] at h
  case error e => cases h
  case ok toks =>
    have hWFtoks : ∀ tok ∈ toks, tok.WF := Lexer.tokenize_WF htk
    obtain ⟨hWFxv, hshape⟩ := Parser.parse_ok_WF hWFtoks h
    have hWFv : WFValue t := (WFx_finite (sizeOf t)).1 t hWFxv hfin le_rfl
    obtain ⟨out, hfmt, hlex⟩ := (fmt_lex (valueToks t).length).1 t hWFv le_rfl opts 0
    refine ⟨out, hfmt, ?_⟩
    have hlex2 : Lexer.tokenize out = .ok (valueToks t ++ [Token.End]) := by
      have := hlex [] [Token.End] (Or.inl rfl) Lexer.tokenize_nil
      simpa using this
    obtain ⟨f0, hf0⟩ := (Parser.canon (valueToks t).length).1 t hWFv le_rfl [Token.End]
    have hcv := hf0 (f0 + 1) (by omega)
    unfold Parser.parse_str
    rw [hlex2]
    rcases hshape with ⟨ms, rfl⟩ | ⟨es, rfl⟩
    · have e1 : Parser.consume_value (f0 + 1)
          (valueToks (Node.mk .ObjectLiteralExpression ms) ++ [Token.End]) =
          Parser.consume_object f0
            (valueToks (Node.mk .ObjectLiteralExpression ms) ++ [Token.End]) := rfl
      rw [e1] at hcv
      exact Parser.parse_object_ok rfl hcv
    · have e1 : Parser.consume_value (f0 + 1)
          (valueToks (Node.mk .ArrayLiteralExpression es) ++ [Token.End]) =
          Parser.consume_array f0
            (valueToks (Node.mk .ArrayLiteralExpression es) ++ [Token.End]) := rfl
      rw [e1] at hcv
      exact Parser.parse_array_ok rfl hcv


/-- The formatter reads only `spaces` and `use_tabs` from its options:
`trailing_commas` and `print_width` never influence the output. -/
theorem Formatter.format_opts_indep : ∀ N : Nat,
    (∀ t : Node, sizeOf t ≤ N → ∀ sp tb b1 b2 pw1 pw2 ind,
      Formatter.format ⟨sp, tb, b1, pw1⟩ ind t = Formatter.format ⟨sp, tb, b2, pw2⟩ ind t) ∧
    (∀ cs : List Node, sizeOf cs ≤ N → ∀ sp tb b1 b2 pw1 pw2 ind first,
      Formatter.format_children ⟨sp, tb, b1, pw1⟩ ind cs first =
        Formatter.format_children ⟨sp, tb, b2, pw2⟩ ind cs first) := by
  intro N
  induction N with
  | zero =>
    constructor
    · intro t hs
      exfalso
      cases t with
      | mk kind children =>
        simp only [Node.mk.sizeOf_spec] at hs
        omega
    · intro cs hs sp tb b1 b2 pw1 pw2 ind first
      cases cs with
      | nil => rfl
      | cons c cs' =>
        exfalso
        simp only [List.cons.sizeOf_spec] at hs
        omega
  | succ N ih =>
    obtain ⟨ihV, ihL⟩ := ih
    constructor
    · intro t hs sp tb b1 b2 pw1 pw2 ind
      cases t with
      | mk kind children =>
        have hcs : sizeOf children ≤ N := by
          simp only [Node.mk.sizeOf_spec] at hs
          omega
        cases kind with
        | ObjectLiteralExpression =>
          simp only [Formatter.format]
          rw [ihL children hcs sp tb b1 b2 pw1 pw2 (ind + 1) true]
          rfl
        | ArrayLiteralExpression =>
          simp only [Formatter.format]
          rw [ihL children hcs sp tb b1 b2 pw1 pw2 (ind + 1) true]
          rfl
        | PropertyAssignment =>
          cases children with
          | nil => rfl
          | cons k rest =>
            cases rest with
            | nil => rfl
            | cons v rest2 =>
              have hk : sizeOf k ≤ N := by
                simp only [Node.mk.sizeOf_spec, List.cons.sizeOf_spec] at hs
                omega
              have hv : sizeOf v ≤ N := by
                simp only [Node.mk.sizeOf_spec, List.cons.sizeOf_spec] at hs
                omega
              simp only [Formatter.format]
              rw [ihV k hk sp tb b1 b2 pw1 pw2 ind, ihV v hv sp tb b1 b2 pw1 pw2 ind]
        | SourceFile => rfl
        | StringLiteral s => rfl
        | NumberLiteral n => rfl
        | TrueKeyword => rfl
        | FalseKeyword => rfl
        | NullKeyword => rfl
        | Identifier s => rfl
        | End => rfl
    · intro cs hs sp tb b1 b2 pw1 pw2 ind first
      cases cs with
      | nil => rfl
      | cons c cs' =>
        have hc : sizeOf c ≤ N := by
          simp only [List.cons.sizeOf_spec] at hs
          omega
        have hcs' : sizeOf cs' ≤ N := by
          simp only [List.cons.sizeOf_spec] at hs
          omega
        simp only [Formatter.format_children]
        rw [ihV c hc sp tb b1 b2 pw1 pw2 ind, ihL cs' hcs' sp tb b1 b2 pw1 pw2 ind false]
        rfl

/-- The head of a non-empty `dropWhile` result fails the predicate. -/
theorem dropWhile_cons_head {p : Char → Bool} : ∀ (l : List Char) {q : Char} {qs : List Char},
    l.dropWhile p = q :: qs → p q = false := by
  intro l
  induction l with
  | nil => intro q qs h; cases h
  | cons a tl ih =>
    intro q qs h
    by_cases hp : p a
    · rw [List.dropWhile_cons_of_pos hp] at h
      exact ih h
    · rw [List.dropWhile_cons_of_neg hp] at h
      obtain ⟨h1, h2⟩ := List.cons.inj h
      rw [← h1]
      simpa using hp

/-- What one `next_token` call consumes: the consumed characters are a
prefix of the input, and a minus sign among them can only sit inside a
string literal's payload. -/
theorem Lexer.next_token_consumed {cs cs' : List Char} {t : Token}
    (h : Lexer.next_token cs = .ok (t, cs')) :
    ∃ chunk, cs = chunk ++ cs' ∧
      ('-' ∈ chunk → ∃ s, t = Token.StringValue s ∧ '-' ∈ s) := by
  unfold Lexer.next_token at h
  have hsplit : cs = cs.takeWhile Char.isWhitespace ++ cs.dropWhile Char.isWhitespace :=
    (List.takeWhile_append_dropWhile _ _).symm
  have hws : '-' ∉ cs.takeWhile Char.isWhitespace := by
    intro hm
    exact absurd (List.mem_takeWhile_imp hm) (by decide)
  obtain ⟨ds, hds⟩ : ∃ ds, cs.dropWhile Char.isWhitespace = ds := ⟨_, rfl⟩
  rw [hds] at h hsplit
  clear hds
  cases ds with
  | nil =>
    simp only [Lexer.next_token_at, List.head?_nil, Except.ok.injEq, Prod.mk.injEq] at h
    obtain ⟨hT, hC⟩ := h
    refine ⟨cs.takeWhile Char.isWhitespace, ?_, fun hm => absurd hm hws⟩
    rw [← hC]
    simpa using hsplit
  | cons c tl =>
    unfold Lexer.next_token_at at h
    simp only [List.head?_cons] at h
    by_cases hpunct : c = '{' ∨ c = '}' ∨ c = '[' ∨ c = ']' ∨ c = ':' ∨ c = ','
    · rw [if_pos hpunct] at h
      unfold Lexer.consume_char at h
      dsimp only at h
      cases hct : CHAR_TOKENS c <;> rw [hct] at h
      · cases h
      · rename_i tk
        simp only [Except.ok.injEq, Prod.mk.injEq] at h
        obtain ⟨hT, hC⟩ := h
        refine ⟨cs.takeWhile Char.isWhitespace ++ [c], ?_, ?_⟩
        · rw [List.append_assoc, ← hC]
          simpa using hsplit
        · intro hm
          exfalso
          rcases List.mem_append.mp hm with hm1 | hm2
          · exact hws hm1
          · have hcm : c = '-' := by
              have : '-' = c := by simpa using hm2
              exact this.symm
            subst hcm
            rcases hpunct with h1 | h1 | h1 | h1 | h1 | h1 <;> exact absurd h1 (by decide)
    · rw [if_neg hpunct] at h
      by_cases hq : c = '"'
      · rw [if_pos hq] at h
        subst hq
        unfold Lexer.consume_string at h
        rw [if_pos (by simp)] at h
        simp only [List.tail_cons] at h
        unfold Lexer.consume_string_rest at h
        cases hdq : tl.dropWhile (· ≠ '"') with
        | nil => rw [hdq] at h; cases h
        | cons q qs =>
          rw [hdq] at h
          simp only [Except.ok.injEq, Prod.mk.injEq] at h
          obtain ⟨hT, hC⟩ := h
          have hqeq : q = '"' := by
            have := dropWhile_cons_head tl hdq
            simpa using this
          have htl2 : tl = tl.takeWhile (· ≠ '"') ++ q :: qs := by
            rw [← hdq]
            exact (List.takeWhile_append_dropWhile _ _).symm
          refine ⟨cs.takeWhile Char.isWhitespace ++
            '"' :: (tl.takeWhile (· ≠ '"') ++ ['"']), ?_, ?_⟩
          · rw [← hC]
            conv_lhs => rw [hsplit, htl2, hqeq]
            simp
          · intro hm
            rcases List.mem_append.mp hm with hm1 | hm2
            · exact absurd hm1 hws
            · refine ⟨tl.takeWhile (· ≠ '"'), hT.symm, ?_⟩
              rcases List.mem_cons.mp hm2 with he | hm3
              · exact absurd he (by decide)
              · rcases List.mem_append.mp hm3 with hm4 | hm5
                · exact hm4
                · exact absurd (by simpa using hm5 : '-' = '"') (by decide)
      · rw [if_neg hq] at h
        by_cases hdig : c.isDigit
        · rw [if_pos hdig] at h
          unfold Lexer.consume_number at h
          cases hf : parseF64 ((c :: tl).takeWhile isF64Char) <;> rw [hf] at h
          · cases h
          · rename_i n
            simp only [Except.ok.injEq, Prod.mk.injEq] at h
            obtain ⟨hT, hC⟩ := h
            refine ⟨cs.takeWhile Char.isWhitespace ++ (c :: tl).takeWhile isF64Char, ?_, ?_⟩
            · rw [← hC, List.append_assoc, List.takeWhile_append_dropWhile]
              exact hsplit
            · intro hm
              exfalso
              rcases List.mem_append.mp hm with hm1 | hm2
              · exact hws hm1
              · exact absurd (List.mem_takeWhile_imp hm2) (by decide)
        · rw [if_neg hdig] at h
          by_cases hal : c.isAlpha
          · rw [if_pos hal] at h
            unfold Lexer.consume_keyword at h
            cases hf : KEYWORD_TOKENS ((c :: tl).takeWhile Char.isAlphanum) <;> rw [hf] at h
            · cases h
            · rename_i tk
              simp only [Except.ok.injEq, Prod.mk.injEq] at h
              obtain ⟨hT, hC⟩ := h
              refine ⟨cs.takeWhile Char.isWhitespace ++
                (c :: tl).takeWhile Char.isAlphanum, ?_, ?_⟩
              · rw [← hC, List.append_assoc, List.takeWhile_append_dropWhile]
                exact hsplit
              · intro hm
                exfalso
                rcases List.mem_append.mp hm with hm1 | hm2
                · exact hws hm1
                · exact absurd (List.mem_takeWhile_imp hm2) (by decide)
          · rw [if_neg hal] at h
            cases h

/-- `next_token` only answers `End` on all-whitespace input. -/
theorem Lexer.next_token_end_ws {cs cs' : List Char}
    (h : Lexer.next_token cs = .ok (Token.End, cs')) : ∀ c ∈ cs, c.isWhitespace := by
  unfold Lexer.next_token at h
  have hsplit : cs = cs.takeWhile Char.isWhitespace ++ cs.dropWhile Char.isWhitespace :=
    (List.takeWhile_append_dropWhile _ _).symm
  obtain ⟨ds, hds⟩ : ∃ ds, cs.dropWhile Char.isWhitespace = ds := ⟨_, rfl⟩
  rw [hds] at h hsplit
  clear hds
  cases ds with
  | nil =>
    intro c hc
    rw [hsplit] at hc
    simp only [List.append_nil] at hc
    exact List.mem_takeWhile_imp hc
  | cons c tl =>
    exfalso
    unfold Lexer.next_token_at at h
    simp only [List.head?_cons] at h
    by_cases hpunct : c = '{' ∨ c = '}' ∨ c = '[' ∨ c = ']' ∨ c = ':' ∨ c = ','
    · rw [if_pos hpunct] at h
      unfold Lexer.consume_char at h
      dsimp only at h
      cases hct : CHAR_TOKENS c <;> rw [hct] at h
      · cases h
      · rename_i tk
        simp only [Except.ok.injEq, Prod.mk.injEq] at h
        obtain ⟨hT, hC⟩ := h
        subst hT
        unfold CHAR_TOKENS at hct
        split_ifs at hct <;> simp_all
    · rw [if_neg hpunct] at h
      by_cases hq : c = '"'
      · rw [if_pos hq] at h
        subst hq
        unfold Lexer.consume_string at h
        rw [if_pos (by simp)] at h
        simp only [List.tail_cons] at h
        unfold Lexer.consume_string_rest at h
        cases hdq : tl.dropWhile (· ≠ '"') with
        | nil => rw [hdq] at h; cases h
        | cons q qs => rw [hdq] at h; simp at h
      · rw [if_neg hq] at h
        by_cases hdig : c.isDigit
        · rw [if_pos hdig] at h
          unfold Lexer.consume_number at h
          cases hf : parseF64 ((c :: tl).takeWhile isF64Char) <;> rw [hf] at h
          · cases h
          · simp at h
        · rw [if_neg hdig] at h
          by_cases hal : c.isAlpha
          · rw [if_pos hal] at h
            unfold Lexer.consume_keyword at h
            cases hf : KEYWORD_TOKENS ((c :: tl).takeWhile Char.isAlphanum) <;> rw [hf] at h
            · cases h
            · rename_i tk
              simp only [Except.ok.injEq, Prod.mk.injEq] at h
              obtain ⟨hT, hC⟩ := h
              subst hT
              unfold KEYWORD_TOKENS at hf
              split_ifs at hf <;> simp_all
          · rw [if_neg hal] at h
            cases h

/-- In a successfully tokenized input, every minus sign lies in some
string literal's payload. -/
theorem Lexer.tokenizeGo_minus : ∀ {f : Nat} {cs : List Char} {ts : List Token},
    Lexer.tokenizeGo f cs = some (.ok ts) → '-' ∈ cs →
    ∃ s, Token.StringValue s ∈ ts ∧ '-' ∈ s := by
  intro f
  induction f with
  | zero => intro cs ts h _; cases h
  | succ f ih =>
    intro cs ts h hm
    unfold Lexer.tokenizeGo at h
    cases hnt : Lexer.next_token cs <;> rw [hnt] at h
    · cases h
    · rename_i p
      obtain ⟨t, cs'⟩ := p
      dsimp only at h
      by_cases hend : t = Token.End
      · subst hend
        exact absurd (Lexer.next_token_end_ws hnt '-' hm) (by decide)
      · rw [if_neg hend] at h
        obtain ⟨chunk, hcs, hch⟩ := Lexer.next_token_consumed hnt
        cases hgo : Lexer.tokenizeGo f cs' <;> rw [hgo] at h
        · cases h
        · rename_i r
          cases r with
          | error e => cases h
          | ok ts' =>
            simp only [Option.some.injEq, Except.ok.injEq] at h
            subst h
            rcases List.mem_append.mp (hcs ▸ hm) with hm1 | hm2
            · obtain ⟨s, hst, hms⟩ := hch hm1
              exact ⟨s, by simp [hst], hms⟩
            · obtain ⟨s, hst, hms⟩ := ih hgo hm2
              exact ⟨s, by simp [hst], hms⟩

/-- Lifting of the minus-provenance invariant to `Lexer.tokenize`. -/
theorem Lexer.tokenize_minus {cs : List Char} {ts : List Token}
    (h : Lexer.tokenize cs = .ok ts) (hm : '-' ∈ cs) :
    ∃ s, Token.StringValue s ∈ ts ∧ '-' ∈ s := by
  unfold Lexer.tokenize at h
  cases hgo : Lexer.tokenizeGo (cs.length + 1) cs <;> rw [hgo] at h
  · cases h
  · rename_i r
    cases r with
    | error e => cases h
    | ok ts2 =>
      simp only [Option.getD_some, Except.ok.injEq] at h
      subst h
      exact Lexer.tokenizeGo_minus hgo hm


/-- Claim C1 (code bug): the spec says enabling `trailing_commas` adds one
comma before each closing delimiter of a non-empty container, but no
formatting code ever reads the field.  Formatting is entirely independent
of `trailing_commas` (and of `print_width`), and the non-empty array
`[1]` formatted with `trailing_commas := true` still has no comma before
its closing bracket. -/
theorem claim_C1_trailing_commas_ignored :
    (∀ (sp : Nat) (tb : Bool) (pw : Nat) (ind : Nat) (t : Node),
      Formatter.format ⟨sp, tb, true, pw⟩ ind t =
        Formatter.format ⟨sp, tb, false, pw⟩ ind t) ∧
    Formatter.format_root
        { FormatOptions.default with trailing_commas := true }
        (Node.mk .ArrayLiteralExpression [Node.mk (.NumberLiteral (.finite ⟨['1'], []⟩)) []]) =
      .ok ['[', '\n', ' ', ' ', ' ', ' ', '1', '\n', ']'] := by
  constructor
  · intro sp tb pw ind t
    exact (Formatter.format_opts_indep (sizeOf t)).1 t le_rfl sp tb true false pw pw ind
  · rfl

/-- Claim C2, counterexample: on the input `@` the lexer detects an
unexpected character, and the outcome is a process abort (`panic!`), not
an error value surfaced to the caller. -/
theorem claim_C2_counterexample :
    Parser.parse_str ['@'] = .panicked "Unexpected character: @" := rfl

/-- Claim C2, amended: every violation the lexer or the parser detects
(unexpected character, unrecognized keyword, malformed number, unexpected
token, exhausted input) aborts the process with a panic: `parse_str` has
no recoverable-error outcome, only a tree or a panic. -/
theorem claim_C2_failures_abort :
    (∀ cs : List Char, (∃ n, Parser.parse_str cs = .ok n) ∨
      (∃ m, Parser.parse_str cs = .panicked m)) ∧
    Parser.parse_str (String.toList "tru") = .panicked "Unexpected keyword: tru" ∧
    Parser.parse_str (String.toList "[1.2.3]") = .panicked "Unexpected number: 1.2.3" ∧
    Parser.parse_str (String.toList "[:]") = .panicked "Unexpected token of input" ∧
    Parser.parse_str (String.toList "\"ab") = .panicked "Unexpected end of input" := by
  refine ⟨?_, rfl, rfl, rfl, rfl⟩
  intro cs
  unfold Parser.parse_str
  cases Lexer.tokenize cs
  · exact Or.inr ⟨_, rfl⟩
  · exact Parser.parse_total _

set_option maxRecDepth 40000 in
/-- Claim C3, counterexample: the pipeline is not idempotent on every
successfully parsed document.  The 310-digit literal of `[1000...0]`
parses to `Ok(inf)` (overflow is not a parse error), the formatter
prints the value as `inf`, and re-running the pipeline on that output
panics: `inf` lexes as an unrecognized keyword. -/
theorem claim_C3_counterexample :
    format_pipeline FormatOptions.default
        ('[' :: '1' :: (List.replicate 309 '0' ++ [']'])) =
        .ok (String.toList "[\n    inf\n]") ∧
      format_pipeline FormatOptions.default (String.toList "[\n    inf\n]") =
        .panicked "Unexpected keyword: inf" :=
  ⟨rfl, rfl⟩

/-- Claim C3, amended: the formatting pipeline is idempotent on every
document whose numeric literals all parse to finite values — when the
pipeline succeeds on such an `x`, running it on its output reproduces
that output byte for byte, for any options. -/
theorem claim_C3_format_idempotent :
    ∀ (opts : FormatOptions) (cs out : List Char) (t : Node),
      Parser.parse_str cs = .ok t → Node.finiteNums t = true →
      format_pipeline opts cs = .ok out → format_pipeline opts out = .ok out := by
  intro opts cs out t hp hfin h
  unfold format_pipeline at h
  rw [hp] at h
  dsimp only at h
  cases hf : Formatter.format_root opts t <;> rw [hf] at h
  case error e => cases h
  case ok o =>
    cases h
    obtain ⟨out2, hf2, hp2⟩ := parse_format_roundtrip opts hp hfin
    rw [hf] at hf2
    cases hf2
    unfold format_pipeline
    rw [hp2]
    dsimp only
    rw [hf]

set_option maxRecDepth 40000 in
/-- Claim C4, counterexample: formatting does not preserve parsability
on every successfully parsed document.  The overflowed literal of
`[1000...0]` (310 digits) parses to a tree holding infinity, the
formatter prints `inf` for it, and re-parsing that output panics — no
tree equal to the original is recovered. -/
theorem claim_C4_counterexample :
    Parser.parse_str ('[' :: '1' :: (List.replicate 309 '0' ++ [']'])) =
        .ok (Node.mk .ArrayLiteralExpression [Node.mk (.NumberLiteral .inf) []]) ∧
      Formatter.format_root FormatOptions.default
          (Node.mk .ArrayLiteralExpression [Node.mk (.NumberLiteral .inf) []]) =
        .ok (String.toList "[\n    inf\n]") ∧
      Parser.parse_str (String.toList "[\n    inf\n]") =
        .panicked "Unexpected keyword: inf" :=
  ⟨rfl, rfl, rfl⟩

/-- Claim C4, amended: structural fidelity on finite documents —
formatting a parsed tree whose numeric literals are all finite succeeds,
and re-parsing the formatted text yields the very same syntax tree, for
any options. -/
theorem claim_C4_structural_fidelity :
    ∀ (opts : FormatOptions) (cs : List Char) (t : Node),
      Parser.parse_str cs = .ok t → Node.finiteNums t = true →
      ∃ out, Formatter.format_root opts t = .ok out ∧ Parser.parse_str out = .ok t :=
  fun opts _ _ h hfin => parse_format_roundtrip opts h hfin

/-- Claim C5: `consume_property_assignment` consumes the token after the
key without checking it is `Colon`: the result is the same whatever
single token stands in the colon slot, and the document with `,` in
place of `:` parses to the same tree as the correct one. -/
theorem claim_C5_colon_unchecked :
    (∀ (f : Nat) (k : List Char) (t1 t2 : Token) (rest : List Token),
      Parser.consume_property_assignment f (Token.StringValue k :: t1 :: rest) =
        Parser.consume_property_assignment f (Token.StringValue k :: t2 :: rest)) ∧
    Parser.parse_str (String.toList "\x7b\"a\",1\x7d") =
      Parser.parse_str (String.toList "\x7b\"a\":1\x7d") ∧
    Parser.parse_str (String.toList "\x7b\"a\":1\x7d") =
      .ok (Node.mk .ObjectLiteralExpression
        [Node.mk .PropertyAssignment
          [Node.mk (.Identifier ['a']) [], Node.mk (.NumberLiteral (.finite ⟨['1'], []⟩)) []]]) := by
  refine ⟨?_, rfl, rfl⟩
  intro f k t1 t2 rest
  cases f with
  | zero => rfl
  | succ g => rfl

/-- Claim C6: `parse` succeeds only when the first token is `LBrace` or
`LBracket`; any other root — the bare scalar `123` and the empty input
included — panics at once with the root-validation message and produces
no tree. -/
theorem claim_C6_root_dispatch :
    (∀ (toks : List Token) (n : Node), Parser.parse toks = .ok n →
      toks.head? = some Token.LBrace ∨ toks.head? = some Token.LBracket) ∧
    Parser.parse_str (String.toList "123") =
      .panicked "Unexpected the first token of input" ∧
    Parser.parse_str [] = .panicked "Unexpected the first token of input" := by
  refine ⟨?_, rfl, rfl⟩
  intro toks n h
  cases hx : toks.head? with
  | none =>
    rw [Parser.parse_other (fun t ht => by rw [hx] at ht; cases ht)] at h
    cases h
  | some t =>
    by_cases hb1 : t = Token.LBrace
    · subst hb1
      exact Or.inl rfl
    by_cases hb2 : t = Token.LBracket
    · subst hb2
      exact Or.inr rfl
    rw [Parser.parse_other (fun t' ht' => by
      rw [hx] at ht'
      have he := Option.some.inj ht'
      subst he
      exact ⟨hb1, hb2⟩)] at h
    cases h

/-- Witness for claim C6 at the token stream of `\x7b\x7d`. -/
theorem claim_C6_witness :
    [Token.LBrace, Token.RBrace, Token.End].head? = some Token.LBrace ∨
      [Token.LBrace, Token.RBrace, Token.End].head? = some Token.LBracket :=
  claim_C6_root_dispatch.1 [Token.LBrace, Token.RBrace, Token.End]
    (Node.mk .ObjectLiteralExpression []) (by rfl)

/-- Claim C7: under default options the empty object formats as exactly
opening brace, newline, closing brace, and the empty array symmetrically
as bracket, newline, bracket. -/
theorem claim_C7_empty_containers :
    Formatter.format_root FormatOptions.default (Node.mk .ObjectLiteralExpression []) =
        .ok ['{', '\n', '}'] ∧
      Formatter.format_root FormatOptions.default (Node.mk .ArrayLiteralExpression []) =
        .ok ['[', '\n', ']'] :=
  ⟨rfl, rfl⟩

/-- Claim C8: commas are purely skippable separators — the object and
array loops consume a `Comma` and recurse with nothing else happening, so
missing, repeated, leading or trailing commas never change the parse. -/
theorem claim_C8_commas_skippable :
    (∀ (f : Nat) (toks : List Token),
      Parser.consume_object_loop (f + 1) (Token.Comma :: toks) =
        Parser.consume_object_loop f toks) ∧
    (∀ (f : Nat) (toks : List Token),
      Parser.consume_array_loop (f + 1) (Token.Comma :: toks) =
        Parser.consume_array_loop f toks) ∧
    Parser.parse_str (String.toList "[1 2]") = Parser.parse_str (String.toList "[1,2]") ∧
    Parser.parse_str (String.toList "[,,1,,2,]") =
      Parser.parse_str (String.toList "[1,2]") ∧
    Parser.parse_str (String.toList "\x7b\"a\":1 \"b\":2\x7d") =
      Parser.parse_str (String.toList "\x7b\"a\":1,\"b\":2\x7d") ∧
    Parser.parse_str (String.toList "[1,2]") =
      .ok (Node.mk .ArrayLiteralExpression
        [Node.mk (.NumberLiteral (.finite ⟨['1'], []⟩)) [],
         Node.mk (.NumberLiteral (.finite ⟨['2'], []⟩)) []]) :=
  ⟨fun _ _ => rfl, fun _ _ => rfl, rfl, rfl, rfl, rfl⟩

/-- Claim C9: `parse` never checks that the tokens are exhausted — a
successful object or array production determines the result whatever
tokens remain, so a complete root document followed by junk parses to
just the prefix's tree. -/
theorem claim_C9_trailing_tokens_ignored :
    (∀ (toks rest : List Token) (f : Nat) (n : Node),
      toks.head? = some Token.LBrace →
      Parser.consume_object f toks = some (.ok n rest) →
      Parser.parse toks = .ok n) ∧
    (∀ (toks rest : List Token) (f : Nat) (n : Node),
      toks.head? = some Token.LBracket →
      Parser.consume_array f toks = some (.ok n rest) →
      Parser.parse toks = .ok n) ∧
    Parser.parse_str (String.toList "\x7b\x7d []") =
      .ok (Node.mk .ObjectLiteralExpression []) ∧
    Parser.parse_str (String.toList "\x7b\"a\":1\x7d 2") =
      .ok (Node.mk .ObjectLiteralExpression
        [Node.mk .PropertyAssignment
          [Node.mk (.Identifier ['a']) [], Node.mk (.NumberLiteral (.finite ⟨['1'], []⟩)) []]]) :=
  ⟨fun _ _ _ _ hh h => Parser.parse_object_ok hh h,
   fun _ _ _ _ hh h => Parser.parse_array_ok hh h, rfl, rfl⟩

/-- Witness for claim C9: the object closes at `RBrace` and the trailing
number token is ignored. -/
theorem claim_C9_witness :
    Parser.parse [Token.LBrace, Token.RBrace, Token.NumberValue (.finite ⟨['2'], []⟩), Token.End] =
      .ok (Node.mk .ObjectLiteralExpression []) :=
  claim_C9_trailing_tokens_ignored.1
    [Token.LBrace, Token.RBrace, Token.NumberValue (.finite ⟨['2'], []⟩), Token.End]
    [Token.NumberValue (.finite ⟨['2'], []⟩), Token.End] 2 (Node.mk .ObjectLiteralExpression [])
    (by rfl) (by rfl)

/-- Claim C10: the lexer maps `-` to no token and starts numbers only on
a digit: whenever tokenization succeeds every minus sign of the input
sits inside a string literal's payload, a `-` at the dispatch position is
an unexpected-character error, and `[-1]` panics. -/
theorem claim_C10_minus_rejected :
    (∀ (cs : List Char) (ts : List Token), Lexer.tokenize cs = .ok ts → '-' ∈ cs →
      ∃ s, Token.StringValue s ∈ ts ∧ '-' ∈ s) ∧
    CHAR_TOKENS '-' = none ∧
    (∀ rest : List Char, Lexer.next_token ('-' :: rest) =
      .error ("Unexpected character: " ++ String.mk ['-'])) ∧
    Parser.parse_str (String.toList "[-1]") = .panicked "Unexpected character: -" := by
  refine ⟨fun _ _ h hm => Lexer.tokenize_minus h hm, rfl, ?_, rfl⟩
  intro rest
  rfl

/-- Witness for claim C10: in the tokenized document `"-"` the minus sign
lies in the string token's payload. -/
theorem claim_C10_witness :
    ∃ s, Token.StringValue s ∈ [Token.StringValue ['-'], Token.End] ∧ '-' ∈ s :=
  claim_C10_minus_rejected.1 (String.toList "\"-\"")
    [Token.StringValue ['-'], Token.End] (by rfl) (by decide)


/-- Witness for claim C3 at the document `[1]` under default options. -/
theorem claim_C3_witness :
    format_pipeline FormatOptions.default (String.toList "[1]") =
        .ok (String.toList "[\n    1\n]") ∧
      format_pipeline FormatOptions.default (String.toList "[\n    1\n]") =
        .ok (String.toList "[\n    1\n]") :=
  ⟨by rfl, claim_C3_format_idempotent FormatOptions.default (String.toList "[1]")
    (String.toList "[\n    1\n]")
    (Node.mk .ArrayLiteralExpression [Node.mk (.NumberLiteral (.finite ⟨['1'], []⟩)) []])
    (by rfl) (by rfl) (by rfl)⟩

/-- Witness for claim C4 at the document `[1]` under default options. -/
theorem claim_C4_witness :
    ∃ out, Formatter.format_root FormatOptions.default
        (Node.mk .ArrayLiteralExpression [Node.mk (.NumberLiteral (.finite ⟨['1'], []⟩)) []]) =
          .ok out ∧
      Parser.parse_str out =
        .ok (Node.mk .ArrayLiteralExpression [Node.mk (.NumberLiteral (.finite ⟨['1'], []⟩)) []]) :=
  claim_C4_structural_fidelity FormatOptions.default (String.toList "[1]")
    (Node.mk .ArrayLiteralExpression [Node.mk (.NumberLiteral (.finite ⟨['1'], []⟩)) []])
    (by rfl) (by rfl)

end JsonParser
